import Mathlib

/-!
# A verification development for the clox-style bytecode compiler and VM

Shallow embedding of the C sources (`value.c`, `object.c`, `table.c`,
`scanner.c`, `compiler.c`, `vm.c`, `chunk.c`) of a single-pass bytecode
compiler and stack virtual machine for a small dynamically typed language.
Pure C functions become Lean functions; the file-scope mutable state (scanner,
parser, compiler, VM) becomes explicit state records threaded through the
functions; unbounded C loops take an explicit fuel argument that is larger
than any bound the loop can reach in the modelled states.
-/

namespace Clox

/-!
## IEEE-754 binary64 model

The C sources use `double`.  We model a double as either a finite value
(carried as an exact rational; rounding and overflow of the 53-bit significand
are abstracted away, which is exact on every computation appearing in the
claims), a signed infinity, or NaN.  The finite values carry no signed zero;
zero behaves as IEEE +0.  Comparison (`==`, `<`) follows IEEE semantics:
NaN compares unequal to (and not less than) everything, including itself.
-/

inductive Double where
  | finite (q : ℚ)
  | posInf
  | negInf
  | nan
deriving DecidableEq

instance : Inhabited Double := ⟨.finite 0⟩

/-- C `==` on doubles: NaN is unequal to everything, including itself. -/
def Double.deq : Double → Double → Bool
  | .finite a, .finite b => a == b
  | .posInf, .posInf => true
  | .negInf, .negInf => true
  | _, _ => false

/-- C `<` on doubles: any comparison involving NaN is false. -/
def Double.dlt : Double → Double → Bool
  | .finite a, .finite b => a < b
  | .finite _, .posInf => true
  | .negInf, .finite _ => true
  | .negInf, .posInf => true
  | _, _ => false

/-- C `>` on doubles. -/
def Double.dgt (a b : Double) : Bool := Double.dlt b a

def Double.add : Double → Double → Double
  | .nan, _ => .nan
  | _, .nan => .nan
  | .finite a, .finite b => .finite (a + b)
  | .posInf, .negInf => .nan
  | .negInf, .posInf => .nan
  | .posInf, _ => .posInf
  | _, .posInf => .posInf
  | .negInf, _ => .negInf
  | _, .negInf => .negInf

def Double.neg : Double → Double
  | .finite a => .finite (-a)
  | .posInf => .negInf
  | .negInf => .posInf
  | .nan => .nan

def Double.sub (a b : Double) : Double := Double.add a (Double.neg b)

def Double.isNeg : Double → Bool
  | .finite q => q < 0
  | .negInf => true
  | _ => false

def Double.mul : Double → Double → Double
  | .nan, _ => .nan
  | _, .nan => .nan
  | .finite a, .finite b => .finite (a * b)
  | .posInf, b => if b.deq (.finite 0) then .nan else if b.isNeg then .negInf else .posInf
  | .negInf, b => if b.deq (.finite 0) then .nan else if b.isNeg then .posInf else .negInf
  | a, .posInf => if a.deq (.finite 0) then .nan else if a.isNeg then .negInf else .posInf
  | a, .negInf => if a.deq (.finite 0) then .nan else if a.isNeg then .posInf else .negInf

/-- IEEE division.  Dividing a nonzero finite value by (+)0 yields a signed
infinity; 0/0 yields NaN; no error state exists. -/
def Double.div : Double → Double → Double
  | .nan, _ => .nan
  | _, .nan => .nan
  | .finite a, .finite b =>
      if b = 0 then
        if a = 0 then .nan else if a < 0 then .negInf else .posInf
      else .finite (a / b)
  | .finite _, .posInf => .finite 0
  | .finite _, .negInf => .finite 0
  | .posInf, .finite b => if b < 0 then .negInf else .posInf
  | .negInf, .finite b => if b < 0 then .posInf else .negInf
  | _, _ => .nan

/-!
## Values and strings (`value.h`, `object.h`)

A `LoxString` is a heap object: we record the address as an `id` (allocation
order from the VM's allocator), together with the `length`, `buffer` and
cached `hash` fields of `struct LoxString`.  C pointer equality on strings is
equality of `id`.
-/

structure LoxString where
  id : Nat
  length : Nat
  buffer : List Char
  hash : Nat
deriving DecidableEq

instance : Inhabited LoxString := ⟨⟨0, 0, [], 0⟩⟩

/-- The tagged union `LoxValue`.  The only object variant is `OBJ_STRING`. -/
inductive LoxValue where
  | valBool (b : Bool)
  | valNil
  | valNumber (n : Double)
  | valObject (s : LoxString)
deriving DecidableEq

instance : Inhabited LoxValue := ⟨.valNil⟩

def is_loxbool : LoxValue → Bool
  | .valBool _ => true
  | _ => false

def is_loxnil : LoxValue → Bool
  | .valNil => true
  | _ => false

def is_loxnumber : LoxValue → Bool
  | .valNumber _ => true
  | _ => false

def is_loxobject : LoxValue → Bool
  | .valObject _ => true
  | _ => false

/-- `is_loxstring`: the only object type is `OBJ_STRING`, so this coincides
with `is_loxobject`. -/
def is_loxstring : LoxValue → Bool
  | .valObject _ => true
  | _ => false

def as_loxbool : LoxValue → Bool
  | .valBool b => b
  | _ => false

def as_loxnumber : LoxValue → Double
  | .valNumber n => n
  | _ => default

def as_loxstring : LoxValue → LoxString
  | .valObject s => s
  | _ => default

/-!
## `memcmp` and `values_equal` (`value.c`)
-/

/-- C `memcmp` over the first `n` characters of two buffers: `0` iff the
prefixes agree, otherwise the sign of the first differing byte pair. -/
def memcmp : List Char → List Char → Nat → Int
  | _, _, 0 => 0
  | x :: a, y :: b, n + 1 =>
      if x = y then memcmp a b n else if x.toNat < y.toNat then -1 else 1
  | _, _, _ + 1 => 0

/-- `value.c:values_equal`.  Different tags compare unequal; booleans and
numbers compare by `==`; `nil` equals `nil`.  In the `VAL_OBJECT` branch the
source returns the raw `memcmp` result converted to `bool`, so two strings of
equal length compare *true* exactly when their buffers differ. -/
def values_equal (lhs rhs : LoxValue) : Bool :=
  match lhs, rhs with
  | .valBool b1, .valBool b2 => b1 == b2
  | .valNil, .valNil => true
  | .valNumber n1, .valNumber n2 => Double.deq n1 n2
  | .valObject s1, .valObject s2 =>
      if s1.length = s2.length then memcmp s1.buffer s2.buffer s1.length != 0
      else false
  | _, _ => false

/-!
## FNV-1a hashing (`object.c`)
-/

def FNV_PRIME32 : Nat := 0x01000193

def FNV_OFFSET32 : Nat := 0x811c9dc5

/-- `2^32`; the C hash state is a `uint32_t`. -/
def U32 : Nat := 4294967296

/-- `object.c:hash_string`: 32-bit FNV-1a over the first `length` bytes. -/
def hash_string (key : List Char) (length : Nat) : Nat :=
  (key.take length).foldl
    (fun h c => (h ^^^ (c.toNat % 256)) * FNV_PRIME32 % U32) FNV_OFFSET32

/-!
## The open-addressed hash table (`table.h`, `table.c`)

`entries` is the heap array of `capacity` slots; a slot is empty
(`key = none`, value `nil`), a tombstone (`key = none`, value non-nil), or
live (`key = some k`).  `find_entry` probes linearly from `hash % capacity`;
its C loop relies on the table containing a fully empty slot and would
otherwise cycle forever, so the embedding gives it `capacity` steps of fuel
(enough to visit every slot once) and returns `none` where the C code would
not terminate.  Key comparison `entry->key == key` is pointer comparison,
i.e. comparison of the allocation `id`.
-/

structure LoxEntry where
  key : Option LoxString
  value : LoxValue
deriving DecidableEq

instance : Inhabited LoxEntry := ⟨⟨none, .valNil⟩⟩

structure LoxTable where
  count : Nat
  capacity : Nat
  entries : List LoxEntry
deriving DecidableEq

/-- `table.c:init_table` (and the state of a freshly zero-initialised table):
`count = 0`, `capacity = 0`, `entries = NULL`. -/
def init_table : LoxTable := ⟨0, 0, []⟩

/-- The loop of `table.c:find_entry`, probing from `index`, remembering the
first tombstone encountered. -/
def find_entry_go (entries : List LoxEntry) (capacity : Nat) (key : LoxString) :
    Nat → Nat → Option Nat → Option Nat
  | 0, _, _ => none
  | fuel + 1, index, tombstone =>
    let entry := entries.getD index default
    match entry.key with
    | none =>
        if is_loxnil entry.value then some (tombstone.getD index)
        else
          find_entry_go entries capacity key fuel ((index + 1) % capacity)
            (match tombstone with
             | none => some index
             | some t => some t)
    | some k =>
        if k.id = key.id then some index
        else find_entry_go entries capacity key fuel ((index + 1) % capacity) tombstone

/-- `table.c:find_entry`: the slot index at which `key` lives, or the slot a
new binding for `key` should use (the first tombstone on the probe path if
any, else the first fully empty slot). -/
def find_entry (entries : List LoxEntry) (capacity : Nat) (key : LoxString) :
    Option Nat :=
  find_entry_go entries capacity key capacity (key.hash % capacity) none

/-- `table.c:table_get`.  The C function reports presence through its `bool`
result and writes the value to an out parameter; we return an `Option`. -/
def table_get (self : LoxTable) (key : LoxString) : Option LoxValue :=
  if self.count = 0 then none
  else
    match find_entry self.entries self.capacity key with
    | none => none
    | some i =>
      let entry := self.entries.getD i default
      match entry.key with
      | none => none
      | some _ => some entry.value

/-- `memory.h:grow_capacity`: arrays start at 8 slots and double. -/
def grow_capacity (n : Nat) : Nat := if n < 8 then 8 else n * 2

/-- The loop body of `adjust_capacity`: skip empty and tombstone entries,
re-insert live ones into the fresh array via `find_entry`, incrementing the
recomputed count. -/
def adjust_step (capacity : Nat) (acc : Nat × List LoxEntry)
    (src : LoxEntry) : Nat × List LoxEntry :=
  match src.key with
  | none => acc
  | some k =>
    match find_entry acc.2 capacity k with
    | none => acc
    | some i => (acc.1 + 1, acc.2.set i ⟨some k, src.value⟩)

/-- `table.c:adjust_capacity`: allocate a fresh all-empty array, re-insert
only the live entries of the old array (tombstones are discarded), and
recount. -/
def adjust_capacity (self : LoxTable) (capacity : Nat) : LoxTable :=
  let fresh : List LoxEntry := List.replicate capacity default
  let res := self.entries.foldl (adjust_step capacity) (0, fresh)
  ⟨res.1, capacity, res.2⟩

/-- `table.c:table_set`.  The load-factor guard `count + 1 >
capacity * 0.75` is computed in exact `double` arithmetic in C, which on
these integer ranges coincides with `capacity * 3 < (count + 1) * 4`.
Returns the `isnewkey` flag (true iff the chosen slot had no key — including
tombstone slots) together with the updated table. -/
def table_set (self : LoxTable) (key : LoxString) (value : LoxValue) :
    Bool × LoxTable :=
  let self :=
    if self.capacity * 3 < (self.count + 1) * 4 then
      adjust_capacity self (grow_capacity self.capacity)
    else self
  match find_entry self.entries self.capacity key with
  | none => (false, self)
  | some i =>
    let entry := self.entries.getD i default
    let isnewkey := entry.key.isNone
    let count :=
      if isnewkey && is_loxnil entry.value then self.count + 1 else self.count
    (isnewkey, ⟨count, self.capacity, self.entries.set i ⟨some key, value⟩⟩)

/-- `table.c:table_delete`: replace the key's slot with a tombstone
(`key = NULL`, value = boolean `true`); `count` is not decremented. -/
def table_delete (self : LoxTable) (key : LoxString) : Bool × LoxTable :=
  if self.count = 0 then (false, self)
  else
    match find_entry self.entries self.capacity key with
    | none => (false, self)
    | some i =>
      let entry := self.entries.getD i default
      match entry.key with
      | none => (false, self)
      | some _ =>
        (true, ⟨self.count, self.capacity,
          self.entries.set i ⟨none, .valBool true⟩⟩)

/-- The loop of `table.c:table_findstring`: probe for a live key with the
given length, hash and byte content; stop at the first fully empty slot. -/
def table_findstring_go (entries : List LoxEntry) (capacity : Nat)
    (chars : List Char) (length : Nat) (hash : Nat) :
    Nat → Nat → Option LoxString
  | 0, _ => none
  | fuel + 1, index =>
    let entry := entries.getD index default
    match entry.key with
    | none =>
        if is_loxnil entry.value then none
        else table_findstring_go entries capacity chars length hash fuel
          ((index + 1) % capacity)
    | some k =>
        if k.length = length ∧ k.hash = hash then
          if memcmp k.buffer chars length = 0 then some k
          else table_findstring_go entries capacity chars length hash fuel
            ((index + 1) % capacity)
        else table_findstring_go entries capacity chars length hash fuel
          ((index + 1) % capacity)

/-- `table.c:table_findstring`: content-based lookup used by the string
interner. -/
def table_findstring (self : LoxTable) (chars : List Char) (length : Nat)
    (hash : Nat) : Option LoxString :=
  if self.count = 0 then none
  else table_findstring_go self.entries self.capacity chars length hash
    self.capacity (hash % self.capacity)

/-!
## The string interner (`object.c`)

The VM owns the interner table `vm.strings`, the intrusive object list
`vm.objects`, and (through `reallocate`) the allocator.  `nextId` models the
allocator handing out a fresh address for each new object; `freed` logs every
buffer released through `free_array` so that the deallocation behaviour of
`take_string` is observable.
-/

structure InternState where
  strings : LoxTable
  objects : List LoxString
  nextId : Nat
  freed : List (List Char)
deriving DecidableEq

def initInternState : InternState := ⟨init_table, [], 0, []⟩

/-- `object.c:allocate_string`: allocate the `LoxString` header, link it into
`vm.objects`, and add it to the `vm.strings` set (value `nil`). -/
def allocate_string (st : InternState) (buffer : List Char) (length : Nat)
    (hash : Nat) : LoxString × InternState :=
  let s : LoxString := ⟨st.nextId, length, buffer, hash⟩
  let strings := (table_set st.strings s .valNil).2
  (s, ⟨strings, s :: st.objects, st.nextId + 1, st.freed⟩)

/-- `object.c:copy_string`: hash the bytes, return the interned duplicate if
one exists, else copy the bytes into a fresh buffer and intern it. -/
def copy_string (st : InternState) (literal : List Char) (length : Nat) :
    LoxString × InternState :=
  let hash := hash_string literal length
  match table_findstring st.strings literal length hash with
  | some interned => (interned, st)
  | none => allocate_string st (literal.take length) length hash

/-- `object.c:take_string`: like `copy_string` but adopts the caller's
buffer; when an interned duplicate exists the redundant buffer is freed
(recorded in `freed`). -/
def take_string (st : InternState) (buffer : List Char) (length : Nat) :
    LoxString × InternState :=
  let hash := hash_string buffer length
  match table_findstring st.strings buffer length hash with
  | some interned => (interned, { st with freed := buffer :: st.freed })
  | none => allocate_string st buffer length hash

/-!
## Chunks and opcodes (`chunk.h`, `chunk.c`)

A chunk is a byte vector, a parallel line vector and a constant pool.  The
geometric growth of the backing arrays is a memory-layout concern with no
observable effect, so the vectors are plain lists (`count` = length).
Opcode values follow the order of the `LoxOpCode` enum.
-/

def OP_CONSTANT : Nat := 0
def OP_NIL : Nat := 1
def OP_TRUE : Nat := 2
def OP_FALSE : Nat := 3
def OP_EQUAL : Nat := 4
def OP_GREATER : Nat := 5
def OP_LESS : Nat := 6
def OP_UNM : Nat := 7
def OP_ADD : Nat := 8
def OP_SUB : Nat := 9
def OP_MUL : Nat := 10
def OP_DIV : Nat := 11
def OP_RET : Nat := 12
def OP_NOT : Nat := 13
def OP_PRINT : Nat := 14
def OP_JUMP : Nat := 15
def OP_JUMP_IF_FALSE : Nat := 16
def OP_LOOP : Nat := 17
def OP_POP : Nat := 18
def OP_DEFINE_GLOBAL : Nat := 19
def OP_GET_GLOBAL : Nat := 20
def OP_GET_LOCAL : Nat := 21
def OP_SET_GLOBAL : Nat := 22
def OP_SET_LOCAL : Nat := 23

structure LoxChunk where
  code : List Nat
  lines : List Nat
  constants : List LoxValue
deriving DecidableEq

def init_chunk : LoxChunk := ⟨[], [], []⟩

/-- `chunk.c:write_chunk`: append one byte and its source line. -/
def write_chunk (chunk : LoxChunk) (byte : Nat) (line : Nat) : LoxChunk :=
  { chunk with code := chunk.code ++ [byte], lines := chunk.lines ++ [line] }

/-- `chunk.c:add_constant`: append to the pool, return the new index. -/
def add_constant (chunk : LoxChunk) (value : LoxValue) : LoxChunk × Nat :=
  ({ chunk with constants := chunk.constants ++ [value] },
   chunk.constants.length)

/-!
## The virtual machine (`vm.h`, `vm.c`)

The fixed `LoxValue stack[STACK_MAX]` array together with the `stacktop`
pointer is modelled as a list whose head is the *bottom* slot `vm.stack[0]`;
the stack height (`stacktop - stack`) is the list's length.  `push_vm` writes
at `stacktop` and increments it — the C code performs no bound check against
`STACK_MAX`, and neither does the model.  `output` collects the text printed
by `OP_PRINT`.
-/

def STACK_MAX : Nat := 256

structure LoxVM where
  chunk : LoxChunk
  ip : Nat
  stack : List LoxValue
  intern : InternState
  globals : LoxTable
  output : List String
deriving DecidableEq

/-- `vm.c:push_vm`: `*vm.stacktop = value; vm.stacktop++;` — no bound check. -/
def push_vm (vm : LoxVM) (value : LoxValue) : LoxVM :=
  { vm with stack := vm.stack ++ [value] }

/-- `vm.c:pop_vm`: decrement `stacktop`, return the value it passed. -/
def pop_vm (vm : LoxVM) : LoxValue × LoxVM :=
  (vm.stack.getLastD default, { vm with stack := vm.stack.dropLast })

/-- `vm.c:peek_vm`: read `distance` slots below the top without popping. -/
def peek_vm (vm : LoxVM) (distance : Nat) : LoxValue :=
  vm.stack.getD (vm.stack.length - 1 - distance) default

/-- `vm.c:isfalsy`: `nil` and boolean `false` are falsy, all else truthy. -/
def isfalsy (value : LoxValue) : Bool :=
  is_loxnil value || (is_loxbool value && !as_loxbool value)

/-- `value.c:print_value` as text.  `%g` formatting of doubles is abstracted
to an unspecified deterministic rendering; no claim depends on it. -/
def print_value : LoxValue → String
  | .valBool b => if b then "true" else "false"
  | .valNil => "nil"
  | .valNumber (.finite q) => toString q.num ++ "/" ++ toString q.den
  | .valNumber .posInf => "inf"
  | .valNumber .negInf => "-inf"
  | .valNumber .nan => "nan"
  | .valObject s => String.mk s.buffer

/-- `vm.c:concatenate`: pop `rhs` then `lhs`, build the joined buffer, and
intern it through `take_string`, which frees the buffer on a duplicate. -/
def concatenate (vm : LoxVM) : LoxVM :=
  let (r, vm) := pop_vm vm
  let (l, vm) := pop_vm vm
  let rhs := as_loxstring r
  let lhs := as_loxstring l
  let length := lhs.length + rhs.length
  let buffer := lhs.buffer.take lhs.length ++ rhs.buffer.take rhs.length
  let (result, intern) := take_string vm.intern buffer length
  push_vm { vm with intern := intern } (.valObject result)

/-- Outcome of one iteration of the `run_vm` dispatch loop. -/
inductive StepOut where
  | next (vm : LoxVM)
  | ok (vm : LoxVM)
  | rtError (msg : String) (line : Nat) (vm : LoxVM)
deriving DecidableEq

/-- `vm.c:runtime_error_vm`: report `msg` with the line recorded for the byte
at `ip - 1`, then reset the stack to empty. -/
def runtime_error_vm (vm : LoxVM) (msg : String) : StepOut :=
  .rtError msg (vm.chunk.lines.getD (vm.ip - 1) 0) { vm with stack := [] }

/-- `vm.c:read_byte`. -/
def read_byte (vm : LoxVM) : Nat × LoxVM :=
  (vm.chunk.code.getD vm.ip 0, { vm with ip := vm.ip + 1 })

/-- `vm.c:read_short`: two operand bytes, big-endian. -/
def read_short (vm : LoxVM) : Nat × LoxVM :=
  (vm.chunk.code.getD vm.ip 0 * 256 + vm.chunk.code.getD (vm.ip + 1) 0,
   { vm with ip := vm.ip + 2 })

/-- `vm.c:make_binary_op`: type-check by peeking, then pop `rhs`, pop `lhs`,
push `valuetype (lhs op rhs)`.  The macro instantiates `valuetype` and `op`
together, so the model takes their composite `mk`. -/
def make_binary_op (vm : LoxVM) (mk : Double → Double → LoxValue) : StepOut :=
  if !is_loxnumber (peek_vm vm 0) || !is_loxnumber (peek_vm vm 1) then
    runtime_error_vm vm "Operands must be numbers."
  else
    let (r, vm) := pop_vm vm
    let (l, vm) := pop_vm vm
    .next (push_vm vm (mk (as_loxnumber l) (as_loxnumber r)))

/-- One iteration of the `vm.c:run_vm` dispatch loop: read a byte, switch on
it, execute.  The C switch has no default case, so an unknown byte falls
through to the next iteration. -/
def step (vm0 : LoxVM) : StepOut :=
  let (instruction, vm) := read_byte vm0
  if instruction = OP_CONSTANT then
    let (b, vm) := read_byte vm
    .next (push_vm vm (vm.chunk.constants.getD b default))
  else if instruction = OP_DEFINE_GLOBAL then
    let (b, vm) := read_byte vm
    let name := as_loxstring (vm.chunk.constants.getD b default)
    let globals := (table_set vm.globals name (peek_vm vm 0)).2
    let vm := { vm with globals := globals }
    .next (pop_vm vm).2
  else if instruction = OP_GET_GLOBAL then
    let (b, vm) := read_byte vm
    let name := as_loxstring (vm.chunk.constants.getD b default)
    match table_get vm.globals name with
    | none =>
        runtime_error_vm vm
          ("Undefined variable '" ++ String.mk name.buffer ++ "'.")
    | some value => .next (push_vm vm value)
  else if instruction = OP_SET_GLOBAL then
    let (b, vm) := read_byte vm
    let name := as_loxstring (vm.chunk.constants.getD b default)
    let (isnew, globals) := table_set vm.globals name (peek_vm vm 0)
    let vm := { vm with globals := globals }
    if isnew then
      let globals := (table_delete vm.globals name).2
      runtime_error_vm { vm with globals := globals }
        ("Undefined variable '" ++ String.mk name.buffer ++ "'.")
    else .next vm
  else if instruction = OP_GET_LOCAL then
    let (slot, vm) := read_byte vm
    .next (push_vm vm (vm.stack.getD slot default))
  else if instruction = OP_SET_LOCAL then
    let (slot, vm) := read_byte vm
    .next { vm with stack := vm.stack.set slot (peek_vm vm 0) }
  else if instruction = OP_POP then
    .next (pop_vm vm).2
  else if instruction = OP_NIL then
    .next (push_vm vm .valNil)
  else if instruction = OP_TRUE then
    .next (push_vm vm (.valBool true))
  else if instruction = OP_FALSE then
    .next (push_vm vm (.valBool false))
  else if instruction = OP_EQUAL then
    let (rhs, vm) := pop_vm vm
    let (lhs, vm) := pop_vm vm
    .next (push_vm vm (.valBool (values_equal lhs rhs)))
  else if instruction = OP_GREATER then
    make_binary_op vm (fun lhs rhs => .valBool (Double.dgt lhs rhs))
  else if instruction = OP_LESS then
    make_binary_op vm (fun lhs rhs => .valBool (Double.dlt lhs rhs))
  else if instruction = OP_ADD then
    if is_loxstring (peek_vm vm 0) && is_loxstring (peek_vm vm 1) then
      .next (concatenate vm)
    else if is_loxnumber (peek_vm vm 0) && is_loxnumber (peek_vm vm 1) then
      let (r, vm) := pop_vm vm
      let (l, vm) := pop_vm vm
      .next (push_vm vm (.valNumber (Double.add (as_loxnumber l) (as_loxnumber r))))
    else runtime_error_vm vm "Operands must be 2 numbers or 2 strings."
  else if instruction = OP_SUB then
    make_binary_op vm (fun lhs rhs => .valNumber (Double.sub lhs rhs))
  else if instruction = OP_MUL then
    make_binary_op vm (fun lhs rhs => .valNumber (Double.mul lhs rhs))
  else if instruction = OP_DIV then
    make_binary_op vm (fun lhs rhs => .valNumber (Double.div lhs rhs))
  else if instruction = OP_NOT then
    let (v, vm) := pop_vm vm
    .next (push_vm vm (.valBool (isfalsy v)))
  else if instruction = OP_UNM then
    if !is_loxnumber (peek_vm vm 0) then
      runtime_error_vm vm "Operand must be a number."
    else
      let (v, vm) := pop_vm vm
      .next (push_vm vm (.valNumber (Double.neg (as_loxnumber v))))
  else if instruction = OP_PRINT then
    let (v, vm) := pop_vm vm
    .next { vm with output := vm.output ++ [print_value v] }
  else if instruction = OP_JUMP then
    let (offset, vm) := read_short vm
    .next { vm with ip := vm.ip + offset }
  else if instruction = OP_JUMP_IF_FALSE then
    let (offset, vm) := read_short vm
    if isfalsy (peek_vm vm 0) then .next { vm with ip := vm.ip + offset }
    else .next vm
  else if instruction = OP_LOOP then
    let (offset, vm) := read_short vm
    .next { vm with ip := vm.ip - offset }
  else if instruction = OP_RET then
    .ok vm
  else .next vm

/-- `vm.h:LoxInterpretResult`. -/
inductive LoxInterpretResult where
  | INTERPRET_OK
  | INTERPRET_COMPILE_ERROR
  | INTERPRET_RUNTIME_ERROR
deriving DecidableEq

/-- Outcome of running the dispatch loop to completion (with fuel). -/
inductive RunOut where
  | ok (vm : LoxVM)
  | rtErr (msg : String) (line : Nat) (vm : LoxVM)
  | outOfFuel (vm : LoxVM)
deriving DecidableEq

/-- `vm.c:run_vm`: iterate `step` until `OP_RET` or a runtime error. -/
def run_vm : Nat → LoxVM → RunOut
  | 0, vm => .outOfFuel vm
  | fuel + 1, vm =>
    match step vm with
    | .next vm => run_vm fuel vm
    | .ok vm => .ok vm
    | .rtError msg line vm => .rtErr msg line vm

/-- `run_vm` instrumented with the greatest stack height reached (the height
is checked after every step; the initial height is included). -/
def run_vm_maxheight : Nat → LoxVM → Nat → Option Nat
  | 0, _, _ => none
  | fuel + 1, vm, acc =>
    match step vm with
    | .next vm => run_vm_maxheight fuel vm (max acc vm.stack.length)
    | .ok vm => some (max acc vm.stack.length)
    | .rtError _ _ vm => some (max acc vm.stack.length)

/-!
## The scanner (`scanner.h`, `scanner.c`)

The `start` and `current` pointers into the nul-terminated source become
indices; reading at or past the end of the source yields the terminating nul.
A token's `(start, length)` source slice is stored directly as its `lexeme`
(for `TOKEN_ERROR` tokens the C code points `start` at a static message, so
the lexeme is that message).  The scanner's unbounded `while` loops each get
fuel `source.length + 1`, which the C loops never exhaust because every
iteration either consumes a character or stops.
-/

inductive LoxTokenType where
  | TOKEN_LEFT_PAREN | TOKEN_RIGHT_PAREN
  | TOKEN_LEFT_BRACE | TOKEN_RIGHT_BRACE
  | TOKEN_COMMA | TOKEN_DOT
  | TOKEN_SEMICOLON
  | TOKEN_MINUS | TOKEN_PLUS
  | TOKEN_SLASH | TOKEN_STAR
  | TOKEN_BANG | TOKEN_BANG_EQUAL
  | TOKEN_EQUAL | TOKEN_EQUAL_EQUAL
  | TOKEN_GREATER | TOKEN_GREATER_EQUAL
  | TOKEN_LESS | TOKEN_LESS_EQUAL
  | TOKEN_IDENTIFIER | TOKEN_STRING | TOKEN_NUMBER
  | TOKEN_AND | TOKEN_CLASS | TOKEN_ELSE | TOKEN_FALSE
  | TOKEN_FOR | TOKEN_FUN | TOKEN_IF | TOKEN_NIL | TOKEN_OR
  | TOKEN_PRINT | TOKEN_RETURN | TOKEN_SUPER | TOKEN_THIS
  | TOKEN_TRUE | TOKEN_VAR | TOKEN_WHILE
  | TOKEN_ERROR
  | TOKEN_EOF
deriving DecidableEq

structure LoxToken where
  type : LoxTokenType
  lexeme : List Char
  length : Nat
  line : Nat
deriving DecidableEq

/-- The zero-initialised token of the file-scope `parser = {0}`: type `0` is
the first enum member `TOKEN_LEFT_PAREN`. -/
instance : Inhabited LoxToken := ⟨⟨.TOKEN_LEFT_PAREN, [], 0, 0⟩⟩

structure LoxScanner where
  source : List Char
  start : Nat
  current : Nat
  line : Nat
deriving DecidableEq

/-- The terminating nul read at (or the undefined bytes read past) the end of
the source. -/
def nulChar : Char := Char.ofNat 0

def scanner_init (source : List Char) : LoxScanner := ⟨source, 0, 0, 1⟩

def scanner_is_at_end (sc : LoxScanner) : Bool :=
  sc.source.getD sc.current nulChar = nulChar

def scanner_advance (sc : LoxScanner) : Char × LoxScanner :=
  (sc.source.getD sc.current nulChar, { sc with current := sc.current + 1 })

def scanner_peek_current (sc : LoxScanner) : Char :=
  sc.source.getD sc.current nulChar

def scanner_peek_next (sc : LoxScanner) : Char :=
  if scanner_is_at_end sc then nulChar
  else sc.source.getD (sc.current + 1) nulChar

def scanner_match (sc : LoxScanner) (expected : Char) : Bool × LoxScanner :=
  if scanner_is_at_end sc then (false, sc)
  else if sc.source.getD sc.current nulChar ≠ expected then (false, sc)
  else (true, { sc with current := sc.current + 1 })

def scanner_make_token (sc : LoxScanner) (type : LoxTokenType) : LoxToken :=
  ⟨type, (sc.source.drop sc.start).take (sc.current - sc.start),
   sc.current - sc.start, sc.line⟩

def error_token (sc : LoxScanner) (message : String) : LoxToken :=
  ⟨.TOKEN_ERROR, message.toList, message.length, sc.line⟩

/-- The comment-skipping inner loop of `scanner_skip_whitespace`. -/
def skip_comment : Nat → LoxScanner → LoxScanner
  | 0, sc => sc
  | fuel + 1, sc =>
    if scanner_peek_current sc ≠ '\n' && !scanner_is_at_end sc then
      skip_comment fuel (scanner_advance sc).2
    else sc

/-- `scanner.c:scanner_skip_whitespace`.  The `'\n'` case of the C switch is
missing its `break`, so after consuming a newline control falls through into
the `'/'` case: if the next-but-one character is not `'/'` the function
returns immediately, leaving any further whitespace unconsumed. -/
def scanner_skip_whitespace : Nat → LoxScanner → LoxScanner
  | 0, sc => sc
  | fuel + 1, sc =>
    let c := scanner_peek_current sc
    if c = ' ' || c = '\r' || c = '\t' then
      scanner_skip_whitespace fuel (scanner_advance sc).2
    else if c = '\n' then
      let sc := (scanner_advance { sc with line := sc.line + 1 }).2
      if scanner_peek_next sc = '/' then
        scanner_skip_whitespace fuel (skip_comment fuel sc)
      else sc
    else if c = '/' then
      if scanner_peek_next sc = '/' then
        scanner_skip_whitespace fuel (skip_comment fuel sc)
      else sc
    else sc

/-- `ctype.h` `isalpha` in the C locale: `[a-zA-Z]`. -/
def isalpha (c : Char) : Bool :=
  ('a' ≤ c && c ≤ 'z') || ('A' ≤ c && c ≤ 'Z')

def isdigit (c : Char) : Bool := '0' ≤ c && c ≤ '9'

/-- The `isident` macro: `isalpha(c) || isdigit(c) || c == '_'`. -/
def isident (c : Char) : Bool := isalpha c || isdigit c || c = '_'

/-- `scanner.c:check_keyword`: keyword-length test then `memcmp` against the
remaining characters of the candidate keyword. -/
def check_keyword (sc : LoxScanner) (start length : Nat) (rest : List Char)
    (type : LoxTokenType) : LoxTokenType :=
  if sc.current - sc.start = start + length then
    if memcmp (sc.source.drop (sc.start + start)) rest length = 0 then type
    else .TOKEN_IDENTIFIER
  else .TOKEN_IDENTIFIER

/-- `scanner.c:identifier_type`, the keyword trie — including its faithful
slips: the `'p'` entry returns `TOKEN_OR` for `print`, and the `'f'` and
`'t'` cases are missing their final returns, so control falls through to the
`'i'` and `'v'` cases respectively when no nested case matches. -/
def identifier_type (sc : LoxScanner) : LoxTokenType :=
  let c := sc.source.getD sc.start nulChar
  if c = 'a' then check_keyword sc 1 2 ['n', 'd'] .TOKEN_AND
  else if c = 'c' then check_keyword sc 1 4 ['l', 'a', 's', 's'] .TOKEN_CLASS
  else if c = 'e' then check_keyword sc 1 3 ['l', 's', 'e'] .TOKEN_ELSE
  else if c = 'f' then
    if sc.current - sc.start > 1 then
      match sc.source.getD (sc.start + 1) nulChar with
      | 'a' => check_keyword sc 2 3 ['l', 's', 'e'] .TOKEN_FALSE
      | 'o' => check_keyword sc 2 1 ['r'] .TOKEN_FOR
      | 'u' => check_keyword sc 2 1 ['n'] .TOKEN_FUN
      | _ => check_keyword sc 1 1 ['f'] .TOKEN_IF
    else check_keyword sc 1 1 ['f'] .TOKEN_IF
  else if c = 'i' then check_keyword sc 1 1 ['f'] .TOKEN_IF
  else if c = 'n' then check_keyword sc 1 2 ['i', 'l'] .TOKEN_NIL
  else if c = 'o' then check_keyword sc 1 1 ['r'] .TOKEN_OR
  else if c = 'p' then check_keyword sc 1 4 ['r', 'i', 'n', 't'] .TOKEN_OR
  else if c = 'r' then
    check_keyword sc 1 5 ['e', 't', 'u', 'r', 'n'] .TOKEN_RETURN
  else if c = 's' then check_keyword sc 1 4 ['u', 'p', 'e', 'r'] .TOKEN_SUPER
  else if c = 't' then
    if sc.current - sc.start > 1 then
      match sc.source.getD (sc.start + 1) nulChar with
      | 'r' => check_keyword sc 2 2 ['u', 'e'] .TOKEN_TRUE
      | 'h' => check_keyword sc 2 2 ['i', 's'] .TOKEN_THIS
      | _ => check_keyword sc 1 2 ['a', 'r'] .TOKEN_VAR
    else check_keyword sc 1 2 ['a', 'r'] .TOKEN_VAR
  else if c = 'v' then check_keyword sc 1 2 ['a', 'r'] .TOKEN_VAR
  else if c = 'w' then check_keyword sc 1 4 ['h', 'i', 'l', 'e'] .TOKEN_WHILE
  else .TOKEN_IDENTIFIER

/-- The identifier-consuming loop of `scanner_scan_identifier`. -/
def scan_identifier_loop : Nat → LoxScanner → LoxScanner
  | 0, sc => sc
  | fuel + 1, sc =>
    if isident (scanner_peek_current sc) then
      scan_identifier_loop fuel (scanner_advance sc).2
    else sc

def scanner_scan_identifier (sc : LoxScanner) : LoxToken × LoxScanner :=
  let sc := scan_identifier_loop (sc.source.length + 1) sc
  (scanner_make_token sc (identifier_type sc), sc)

/-- The body loop of `scanner_scan_string`. -/
def scan_string_loop : Nat → LoxScanner → LoxScanner
  | 0, sc => sc
  | fuel + 1, sc =>
    if scanner_peek_current sc ≠ '"' && !scanner_is_at_end sc then
      let sc := if scanner_peek_current sc = '\n' then
        { sc with line := sc.line + 1 } else sc
      scan_string_loop fuel (scanner_advance sc).2
    else sc

def scanner_scan_string (sc : LoxScanner) : LoxToken × LoxScanner :=
  let sc := scan_string_loop (sc.source.length + 1) sc
  if scanner_is_at_end sc then (error_token sc "Unterminated string.", sc)
  else
    let sc := (scanner_advance sc).2
    (scanner_make_token sc .TOKEN_STRING, sc)

/-- The digit-consuming loop of `scanner_scan_number`. -/
def scan_digits_loop : Nat → LoxScanner → LoxScanner
  | 0, sc => sc
  | fuel + 1, sc =>
    if isdigit (scanner_peek_current sc) then
      scan_digits_loop fuel (scanner_advance sc).2
    else sc

def scanner_scan_number (sc : LoxScanner) : LoxToken × LoxScanner :=
  let sc := scan_digits_loop (sc.source.length + 1) sc
  let sc :=
    if scanner_peek_current sc = '.' && isdigit (scanner_peek_next sc) then
      scan_digits_loop (sc.source.length + 1) (scanner_advance sc).2
    else sc
  (scanner_make_token sc .TOKEN_NUMBER, sc)

/-- `scanner.c:scanner_scan_token` (called `scan_token` by the compiler). -/
def scanner_scan_token (sc : LoxScanner) : LoxToken × LoxScanner :=
  let sc := scanner_skip_whitespace (sc.source.length + 1) sc
  let sc := { sc with start := sc.current }
  if scanner_is_at_end sc then (scanner_make_token sc .TOKEN_EOF, sc)
  else
    let (c, sc) := scanner_advance sc
    if isalpha c || c = '_' then scanner_scan_identifier sc
    else if isdigit c then scanner_scan_number sc
    else if c = '(' then (scanner_make_token sc .TOKEN_LEFT_PAREN, sc)
    else if c = ')' then (scanner_make_token sc .TOKEN_RIGHT_PAREN, sc)
    else if c = '\x7b' then (scanner_make_token sc .TOKEN_LEFT_BRACE, sc)
    else if c = '\x7d' then (scanner_make_token sc .TOKEN_RIGHT_BRACE, sc)
    else if c = ';' then (scanner_make_token sc .TOKEN_SEMICOLON, sc)
    else if c = ',' then (scanner_make_token sc .TOKEN_COMMA, sc)
    else if c = '.' then (scanner_make_token sc .TOKEN_DOT, sc)
    else if c = '-' then (scanner_make_token sc .TOKEN_MINUS, sc)
    else if c = '+' then (scanner_make_token sc .TOKEN_PLUS, sc)
    else if c = '/' then (scanner_make_token sc .TOKEN_SLASH, sc)
    else if c = '*' then (scanner_make_token sc .TOKEN_STAR, sc)
    else if c = '!' then
      let (m, sc) := scanner_match sc '='
      (scanner_make_token sc (if m then .TOKEN_BANG_EQUAL else .TOKEN_BANG), sc)
    else if c = '=' then
      let (m, sc) := scanner_match sc '='
      (scanner_make_token sc
        (if m then .TOKEN_EQUAL_EQUAL else .TOKEN_EQUAL), sc)
    else if c = '<' then
      let (m, sc) := scanner_match sc '='
      (scanner_make_token sc (if m then .TOKEN_LESS_EQUAL else .TOKEN_LESS), sc)
    else if c = '>' then
      let (m, sc) := scanner_match sc '='
      (scanner_make_token sc
        (if m then .TOKEN_GREATER_EQUAL else .TOKEN_GREATER), sc)
    else if c = '"' then scanner_scan_string sc
    else (error_token sc "Unexpected character.", sc)

/-!
## The compiler (`compiler.c`)

The file-scope `parser`, `current` compiler and `compiling_chunk` (plus the
scanner and the VM's string interner, which `copy_string` mutates) become one
`CompilerState` record.  The fixed `locals[UINT8_COUNT]` array with its
`localcount` becomes a list (`localcount` = length); `addlocal` refuses to
grow it past 256 exactly as the C bound check does.  The diagnostic text
printed to `stderr` by `error_at` is not modelled — only the `haderror` and
`panicmode` flags, which are all the rest of the compiler observes.

The mutually recursive grammar functions take explicit fuel; the Pratt
handlers receive `parse_precedence` (already applied to its fuel) as their
`pp` argument, mirroring the function-pointer indirection of the C parse-rule
table.
-/

structure LoxParser where
  current : LoxToken
  previous : LoxToken
  haderror : Bool
  panicmode : Bool
deriving DecidableEq

structure LoxLocal where
  name : LoxToken
  depth : Int
deriving DecidableEq

instance : Inhabited LoxLocal := ⟨⟨default, 0⟩⟩

structure CompilerState where
  sc : LoxScanner
  parser : LoxParser
  chunk : LoxChunk
  locals : List LoxLocal
  scopedepth : Nat
  intern : InternState
deriving DecidableEq

/-- `compiler.c:error_at`: in panic mode further diagnostics are suppressed;
otherwise set both `panicmode` and the sticky `haderror`. -/
def error_at (st : CompilerState) (_token : LoxToken) (_message : String) :
    CompilerState :=
  if st.parser.panicmode then st
  else { st with parser :=
    { st.parser with panicmode := true, haderror := true } }

/-- `compiler.c:error`: report at the previous token. -/
def errorP (st : CompilerState) (message : String) : CompilerState :=
  error_at st st.parser.previous message

def error_at_current (st : CompilerState) (message : String) : CompilerState :=
  error_at st st.parser.current message

/-- The error-token loop of `compiler.c:advance`; each `TOKEN_ERROR` has
consumed at least one source character, so the fuel is never exhausted. -/
def advance_loop : Nat → CompilerState → CompilerState
  | 0, st => st
  | fuel + 1, st =>
    let (token, sc) := scanner_scan_token st.sc
    let st := { st with sc := sc, parser := { st.parser with current := token } }
    if token.type ≠ .TOKEN_ERROR then st
    else advance_loop fuel (error_at_current st (String.mk token.lexeme))

/-- `compiler.c:advance`. -/
def advance (st : CompilerState) : CompilerState :=
  advance_loop (st.sc.source.length + 1)
    { st with parser := { st.parser with previous := st.parser.current } }

/-- `compiler.c:consume`. -/
def consume (st : CompilerState) (type : LoxTokenType) (message : String) :
    CompilerState :=
  if st.parser.current.type = type then advance st
  else error_at_current st message

def check (st : CompilerState) (type : LoxTokenType) : Bool :=
  st.parser.current.type = type

/-- `compiler.c:match` (a Lean keyword, hence `match_token`). -/
def match_token (st : CompilerState) (type : LoxTokenType) :
    Bool × CompilerState :=
  if !check st type then (false, st) else (true, advance st)

def emit_byte (st : CompilerState) (byte : Nat) : CompilerState :=
  { st with chunk := write_chunk st.chunk byte st.parser.previous.line }

def emit_bytes (st : CompilerState) (byte1 byte2 : Nat) : CompilerState :=
  emit_byte (emit_byte st byte1) byte2

/-- `(n >> 8) & 0xFF`. -/
def mask_int16_upper (n : Nat) : Nat := n / 256 % 256

/-- `n & 0xFF`. -/
def mask_int16_lower (n : Nat) : Nat := n % 256

/-- `compiler.c:emit_loop`: an `OP_LOOP` with the big-endian backward
distance from the byte after the operand to `loopstart`. -/
def emit_loop (st : CompilerState) (loopstart : Nat) : CompilerState :=
  let st := emit_byte st OP_LOOP
  let offset := st.chunk.code.length - loopstart + 2
  let st := if offset > 65535 then errorP st "Loop body too large." else st
  emit_byte (emit_byte st (mask_int16_upper offset)) (mask_int16_lower offset)

/-- `compiler.c:emit_jump`: the instruction plus a `0xFFFF` placeholder;
returns the chunk offset of the operand's upper byte. -/
def emit_jump (st : CompilerState) (instruction : Nat) : Nat × CompilerState :=
  let st := emit_byte st instruction
  let st := emit_byte st 0xFF
  let st := emit_byte st 0xFF
  (st.chunk.code.length - 2, st)

def emit_return (st : CompilerState) : CompilerState := emit_byte st OP_RET

/-- `compiler.c:make_constant`: append to the pool; indexes past 255 do not
fit the one-byte operand and are a compile error (returning index 0). -/
def make_constant (st : CompilerState) (value : LoxValue) :
    Nat × CompilerState :=
  let (chunk, index) := add_constant st.chunk value
  let st := { st with chunk := chunk }
  if index > 255 then (0, errorP st "Too many constants in one chunk.")
  else (index, st)

def emit_constant (st : CompilerState) (value : LoxValue) : CompilerState :=
  let (index, st) := make_constant st value
  emit_bytes st OP_CONSTANT index

/-- `compiler.c:patch_jump`: overwrite the placeholder with the distance from
the byte after the operand to the current end of the chunk. -/
def patch_jump (st : CompilerState) (offset : Nat) : CompilerState :=
  let jump := st.chunk.code.length - offset - 2
  let st := if jump > 65535 then errorP st "Too much code to jump over." else st
  let code := (st.chunk.code.set offset (mask_int16_upper jump)).set
    (offset + 1) (mask_int16_lower jump)
  { st with chunk := { st.chunk with code := code } }

def beginscope (st : CompilerState) : CompilerState :=
  { st with scopedepth := st.scopedepth + 1 }

/-- The popping loop of `compiler.c:endscope`. -/
def endscope_go : Nat → CompilerState → CompilerState
  | 0, st => st
  | fuel + 1, st =>
    if 0 < st.locals.length &&
        (st.scopedepth : Int) < (st.locals.getLastD default).depth then
      endscope_go fuel { emit_byte st OP_POP with locals := st.locals.dropLast }
    else st

/-- `compiler.c:endscope`: leave the block and emit an `OP_POP` for every
local declared in it. -/
def endscope (st : CompilerState) : CompilerState :=
  let st := { st with scopedepth := st.scopedepth - 1 }
  endscope_go (st.locals.length + 1) st

/-- `strtod` restricted to the numeric lexemes the scanner produces
(`digits` optionally followed by `.` and digits), valued exactly. -/
def strtod (s : List Char) : ℚ :=
  let digitsVal : List Char → Nat :=
    fun ds => ds.foldl (fun a c => a * 10 + (c.toNat - 48)) 0
  let intPart := s.takeWhile isdigit
  match s.drop intPart.length with
  | '.' :: rest =>
    let frac := rest.takeWhile isdigit
    (digitsVal intPart : ℚ) + (digitsVal frac : ℚ) / (10 : ℚ) ^ frac.length
  | _ => (digitsVal intPart : ℚ)

/-- `compiler.c:identifier_constant`: intern the identifier's characters and
add the resulting string to the constant pool. -/
def identifier_constant (st : CompilerState) (name : LoxToken) :
    Nat × CompilerState :=
  let (s, intern) := copy_string st.intern name.lexeme name.length
  make_constant { st with intern := intern } (.valObject s)

/-- `compiler.c:identifiers_equal`: length test then `memcmp`. -/
def identifiers_equal (lhs rhs : LoxToken) : Bool :=
  lhs.length == rhs.length && memcmp lhs.lexeme rhs.lexeme lhs.length == 0

/-- The innermost-outward walk of `compiler.c:resolve_local`, over the
locals paired with their indexes, last first. -/
def resolve_local_go (name : LoxToken) :
    List (Nat × LoxLocal) → CompilerState → Int × CompilerState
  | [], st => (-1, st)
  | (i, l) :: rest, st =>
    if identifiers_equal name l.name then
      let st :=
        if l.depth = -1 then
          errorP st "Can't read local variable in its own initializer."
        else st
      ((i : Int), st)
    else resolve_local_go name rest st

/-- `compiler.c:resolve_local`: the stack slot of the innermost local with
this name, or `-1`. -/
def resolve_local (st : CompilerState) (name : LoxToken) :
    Int × CompilerState :=
  resolve_local_go name (((List.range st.locals.length).zip st.locals).reverse) st

/-- `compiler.c:addlocal`: append a declared-but-uninitialised local
(depth `-1`), refusing past `UINT8_COUNT` locals. -/
def addlocal (st : CompilerState) (name : LoxToken) : CompilerState :=
  if st.locals.length ≥ 256 then
    errorP st "Too many local variables in function."
  else { st with locals := st.locals ++ [⟨name, -1⟩] }

/-- The duplicate-check walk of `compiler.c:declare_variable` (stops at the
first local belonging to an enclosing scope). -/
def declare_variable_go (name : LoxToken) (scopedepth : Nat) :
    List LoxLocal → CompilerState → CompilerState
  | [], st => st
  | l :: rest, st =>
    if l.depth ≠ -1 && l.depth < (scopedepth : Int) then st
    else
      let st :=
        if identifiers_equal name l.name then
          errorP st "A variable with this name already exists in this scope."
        else st
      declare_variable_go name scopedepth rest st

/-- `compiler.c:declare_variable`: record a local (globals are late bound). -/
def declare_variable (st : CompilerState) : CompilerState :=
  if st.scopedepth = 0 then st
  else
    let name := st.parser.previous
    let st := declare_variable_go name st.scopedepth st.locals.reverse st
    addlocal st name

/-- `compiler.c:parse_variable`: consume the identifier; locals return slot
marker 0, globals return the identifier's constant-pool index. -/
def parse_variable (st : CompilerState) (error_message : String) :
    Nat × CompilerState :=
  let st := consume st .TOKEN_IDENTIFIER error_message
  let st := declare_variable st
  if st.scopedepth > 0 then (0, st)
  else identifier_constant st st.parser.previous

/-- `compiler.c:mark_initialized`: commit the newest local at the current
depth. -/
def mark_initialized (st : CompilerState) : CompilerState :=
  let i := st.locals.length - 1
  let l := st.locals.getD i default
  { st with locals := st.locals.set i { l with depth := (st.scopedepth : Int) } }

/-- `compiler.c:define_variable`. -/
def define_variable (st : CompilerState) (global : Nat) : CompilerState :=
  if st.scopedepth > 0 then mark_initialized st
  else emit_bytes st OP_DEFINE_GLOBAL global

def PREC_NONE : Nat := 0
def PREC_ASSIGNMENT : Nat := 1
def PREC_OR : Nat := 2
def PREC_AND : Nat := 3
def PREC_EQUALITY : Nat := 4
def PREC_COMPARISON : Nat := 5
def PREC_TERMINAL : Nat := 6
def PREC_FACTOR : Nat := 7
def PREC_UNARY : Nat := 8
def PREC_CALL : Nat := 9
def PREC_PRIMARY : Nat := 10

/-- The type of `parse_precedence` as the handlers see it. -/
abbrev PP := Nat → CompilerState → CompilerState

/-- The `precedence` column of the `rules` table. -/
def rule_precedence : LoxTokenType → Nat
  | .TOKEN_MINUS => PREC_TERMINAL
  | .TOKEN_PLUS => PREC_TERMINAL
  | .TOKEN_SLASH => PREC_FACTOR
  | .TOKEN_STAR => PREC_FACTOR
  | .TOKEN_BANG_EQUAL => PREC_EQUALITY
  | .TOKEN_EQUAL_EQUAL => PREC_EQUALITY
  | .TOKEN_GREATER => PREC_COMPARISON
  | .TOKEN_GREATER_EQUAL => PREC_COMPARISON
  | .TOKEN_LESS => PREC_COMPARISON
  | .TOKEN_LESS_EQUAL => PREC_COMPARISON
  | .TOKEN_AND => PREC_AND
  | .TOKEN_OR => PREC_OR
  | _ => PREC_NONE

/-- `compiler.c:and_`. -/
def and_ (pp : PP) (_can_assign : Bool) (st : CompilerState) : CompilerState :=
  let (endjump, st) := emit_jump st OP_JUMP_IF_FALSE
  let st := emit_byte st OP_POP
  let st := pp PREC_AND st
  patch_jump st endjump

/-- `compiler.c:binary`: compile the right operand one precedence level
higher, then emit the operator — the composites `!=`, `>=`, `<=` as the
pairs `EQUAL NOT`, `LESS NOT`, `GREATER NOT`. -/
def binary (pp : PP) (_can_assign : Bool) (st : CompilerState) :
    CompilerState :=
  let optype := st.parser.previous.type
  let st := pp (rule_precedence optype + 1) st
  match optype with
  | .TOKEN_EQUAL_EQUAL => emit_byte st OP_EQUAL
  | .TOKEN_GREATER => emit_byte st OP_GREATER
  | .TOKEN_BANG_EQUAL => emit_bytes st OP_EQUAL OP_NOT
  | .TOKEN_LESS => emit_byte st OP_LESS
  | .TOKEN_GREATER_EQUAL => emit_bytes st OP_LESS OP_NOT
  | .TOKEN_LESS_EQUAL => emit_bytes st OP_GREATER OP_NOT
  | .TOKEN_PLUS => emit_byte st OP_ADD
  | .TOKEN_MINUS => emit_byte st OP_SUB
  | .TOKEN_STAR => emit_byte st OP_MUL
  | .TOKEN_SLASH => emit_byte st OP_DIV
  | _ => st

/-- `compiler.c:literal`. -/
def literal (_pp : PP) (_can_assign : Bool) (st : CompilerState) :
    CompilerState :=
  match st.parser.previous.type with
  | .TOKEN_FALSE => emit_byte st OP_FALSE
  | .TOKEN_NIL => emit_byte st OP_NIL
  | .TOKEN_TRUE => emit_byte st OP_TRUE
  | _ => st

/-- `compiler.c:grouping`. -/
def grouping (pp : PP) (_can_assign : Bool) (st : CompilerState) :
    CompilerState :=
  consume (pp PREC_ASSIGNMENT st) .TOKEN_RIGHT_PAREN
    "Expected ')' after expression."

/-- `compiler.c:number`. -/
def number (_pp : PP) (_can_assign : Bool) (st : CompilerState) :
    CompilerState :=
  emit_constant st (.valNumber (.finite (strtod st.parser.previous.lexeme)))

/-- `compiler.c:or_`. -/
def or_ (pp : PP) (_can_assign : Bool) (st : CompilerState) : CompilerState :=
  let (elsejump, st) := emit_jump st OP_JUMP_IF_FALSE
  let (endjump, st) := emit_jump st OP_JUMP
  let st := patch_jump st elsejump
  let st := emit_byte st OP_POP
  let st := pp PREC_OR st
  patch_jump st endjump

/-- `compiler.c:string`: intern the lexeme without its surrounding quotes. -/
def string (_pp : PP) (_can_assign : Bool) (st : CompilerState) :
    CompilerState :=
  let (s, intern) := copy_string st.intern (st.parser.previous.lexeme.drop 1)
    (st.parser.previous.length - 2)
  emit_constant { st with intern := intern } (.valObject s)

/-- `compiler.c:named_variable`. -/
def named_variable (pp : PP) (name : LoxToken) (can_assign : Bool)
    (st : CompilerState) : CompilerState :=
  let (arg0, st) := resolve_local st name
  let (arg, getop, setop, st) :=
    if arg0 ≠ -1 then (arg0.toNat, OP_GET_LOCAL, OP_SET_LOCAL, st)
    else
      let (index, st) := identifier_constant st name
      (index, OP_GET_GLOBAL, OP_SET_GLOBAL, st)
  if can_assign then
    let (m, st) := match_token st .TOKEN_EQUAL
    if m then emit_bytes (pp PREC_ASSIGNMENT st) setop (arg % 256)
    else emit_bytes st getop (arg % 256)
  else emit_bytes st getop (arg % 256)

/-- `compiler.c:variable` (a Lean keyword, hence `variable_`). -/
def variable_ (pp : PP) (can_assign : Bool) (st : CompilerState) :
    CompilerState :=
  named_variable pp st.parser.previous can_assign st

/-- `compiler.c:unary`. -/
def unary (pp : PP) (_can_assign : Bool) (st : CompilerState) :
    CompilerState :=
  let optype := st.parser.previous.type
  let st := pp PREC_UNARY st
  match optype with
  | .TOKEN_BANG => emit_byte st OP_NOT
  | .TOKEN_MINUS => emit_byte st OP_UNM
  | _ => st

/-- The `prefix` column of the `rules` table. -/
def prefix_rule_of :
    LoxTokenType → Option (PP → Bool → CompilerState → CompilerState)
  | .TOKEN_LEFT_PAREN => some grouping
  | .TOKEN_MINUS => some unary
  | .TOKEN_BANG => some unary
  | .TOKEN_IDENTIFIER => some variable_
  | .TOKEN_STRING => some string
  | .TOKEN_NUMBER => some number
  | .TOKEN_FALSE => some literal
  | .TOKEN_NIL => some literal
  | .TOKEN_TRUE => some literal
  | _ => none

/-- The `infix` column of the `rules` table. -/
def infix_rule_of :
    LoxTokenType → Option (PP → Bool → CompilerState → CompilerState)
  | .TOKEN_MINUS => some binary
  | .TOKEN_PLUS => some binary
  | .TOKEN_SLASH => some binary
  | .TOKEN_STAR => some binary
  | .TOKEN_BANG_EQUAL => some binary
  | .TOKEN_EQUAL_EQUAL => some binary
  | .TOKEN_GREATER => some binary
  | .TOKEN_GREATER_EQUAL => some binary
  | .TOKEN_LESS => some binary
  | .TOKEN_LESS_EQUAL => some binary
  | .TOKEN_AND => some and_
  | .TOKEN_OR => some or_
  | _ => none

structure LoxParseRule where
  prefixRule : Option (PP → Bool → CompilerState → CompilerState)
  infixRule : Option (PP → Bool → CompilerState → CompilerState)
  precedence : Nat

/-- `compiler.c:get_rule` over the `rules` table. -/
def get_rule (type : LoxTokenType) : LoxParseRule :=
  ⟨prefix_rule_of type, infix_rule_of type, rule_precedence type⟩

/-- The infix loop of `parse_precedence`; the handlers reach
`parse_precedence` through `pp`, mirroring the C function-pointer table. -/
def infix_loop (pp : PP) : Nat → Nat → Bool → CompilerState → CompilerState
  | 0, _, _, st => st
  | fuel + 1, precedence, can_assign, st =>
    if precedence ≤ (get_rule st.parser.current.type).precedence then
      let st := advance st
      match (get_rule st.parser.previous.type).infixRule with
      | none => st
      | some infixFn =>
        infix_loop pp fuel precedence can_assign (infixFn pp can_assign st)
    else st

/-- `compiler.c:parse_precedence`. -/
def parse_precedence : Nat → Nat → CompilerState → CompilerState
  | 0, _, st => st
  | fuel + 1, precedence, st =>
    let st := advance st
    match (get_rule st.parser.previous.type).prefixRule with
    | none => errorP st "Expected an expression."
    | some prefixFn =>
      let can_assign := precedence ≤ PREC_ASSIGNMENT
      let st := prefixFn (fun p s => parse_precedence fuel p s) can_assign st
      let st := infix_loop (fun p s => parse_precedence fuel p s) fuel
        precedence can_assign st
      if can_assign then
        let (m, st) := match_token st .TOKEN_EQUAL
        if m then errorP st "Invalid assignment target." else st
      else st

/-- `compiler.c:expression`. -/
def expression (fuel : Nat) (st : CompilerState) : CompilerState :=
  parse_precedence fuel PREC_ASSIGNMENT st

/-- `compiler.c:var_declaration`. -/
def var_declaration (fuel : Nat) (st : CompilerState) : CompilerState :=
  let (global, st) := parse_variable st "Expected a variable name."
  let (m, st) := match_token st .TOKEN_EQUAL
  let st := if m then expression fuel st else emit_byte st OP_NIL
  let st := consume st .TOKEN_SEMICOLON
    "Expected ';' after variable declaration."
  define_variable st global

/-- `compiler.c:print_statement`. -/
def print_statement (fuel : Nat) (st : CompilerState) : CompilerState :=
  let st := expression fuel st
  let st := consume st .TOKEN_SEMICOLON "Expected ';' after value."
  emit_byte st OP_PRINT

/-- `compiler.c:expression_statement`. -/
def expression_statement (fuel : Nat) (st : CompilerState) : CompilerState :=
  let st := expression fuel st
  let st := consume st .TOKEN_SEMICOLON "Expected ';' after value."
  emit_byte st OP_POP

/-- The token-discarding loop of `compiler.c:synchronize`. -/
def synchronize_go : Nat → CompilerState → CompilerState
  | 0, st => st
  | fuel + 1, st =>
    if st.parser.current.type ≠ .TOKEN_EOF then
      if st.parser.previous.type = .TOKEN_SEMICOLON then st
      else
        match st.parser.current.type with
        | .TOKEN_CLASS | .TOKEN_FUN | .TOKEN_VAR | .TOKEN_FOR | .TOKEN_IF
        | .TOKEN_WHILE | .TOKEN_PRINT | .TOKEN_RETURN => st
        | _ => synchronize_go fuel (advance st)
    else st

/-- `compiler.c:synchronize`: discard tokens to the next statement
boundary. -/
def synchronize (st : CompilerState) : CompilerState :=
  synchronize_go (st.sc.source.length + 2)
    { st with parser := { st.parser with panicmode := false } }

mutual

/-- `compiler.c:declaration`. -/
def declaration : Nat → CompilerState → CompilerState
  | 0, st => st
  | fuel + 1, st =>
    let (m, st) := match_token st .TOKEN_VAR
    let st := if m then var_declaration fuel st else statement fuel st
    if st.parser.panicmode then synchronize st else st

/-- `compiler.c:statement`. -/
def statement : Nat → CompilerState → CompilerState
  | 0, st => st
  | fuel + 1, st =>
    let (m, st) := match_token st .TOKEN_PRINT
    if m then print_statement fuel st
    else
      let (m, st) := match_token st .TOKEN_IF
      if m then if_statement fuel st
      else
        let (m, st) := match_token st .TOKEN_WHILE
        if m then while_statement fuel st
        else
          let (m, st) := match_token st .TOKEN_FOR
          if m then for_statement fuel st
          else
            let (m, st) := match_token st .TOKEN_LEFT_BRACE
            if m then endscope (block fuel (beginscope st))
            else expression_statement fuel st

/-- `compiler.c:block`. -/
def block : Nat → CompilerState → CompilerState
  | 0, st => st
  | fuel + 1, st =>
    if !check st .TOKEN_RIGHT_BRACE && !check st .TOKEN_EOF then
      block fuel (declaration fuel st)
    else consume st .TOKEN_RIGHT_BRACE "Expected ')' after block."

/-- `compiler.c:if_statement`. -/
def if_statement : Nat → CompilerState → CompilerState
  | 0, st => st
  | fuel + 1, st =>
    let st := consume st .TOKEN_LEFT_PAREN "Expected '(' after 'if'."
    let st := expression fuel st
    let st := consume st .TOKEN_RIGHT_PAREN "Expected ')' after condition."
    let (thenjump, st) := emit_jump st OP_JUMP_IF_FALSE
    let st := emit_byte st OP_POP
    let st := statement fuel st
    let (elsejump, st) := emit_jump st OP_JUMP
    let st := patch_jump st thenjump
    let st := emit_byte st OP_POP
    let (m, st) := match_token st .TOKEN_ELSE
    let st := if m then statement fuel st else st
    patch_jump st elsejump

/-- `compiler.c:while_statement` (with the source's `"Expected '!' after
'while'."` typo kept verbatim). -/
def while_statement : Nat → CompilerState → CompilerState
  | 0, st => st
  | fuel + 1, st =>
    let loopstart := st.chunk.code.length
    let st := consume st .TOKEN_LEFT_PAREN "Expected '!' after 'while'."
    let st := expression fuel st
    let st := consume st .TOKEN_RIGHT_PAREN "Expected ')' after condition."
    let (exitjump, st) := emit_jump st OP_JUMP_IF_FALSE
    let st := emit_byte st OP_POP
    let st := statement fuel st
    let st := emit_loop st loopstart
    let st := patch_jump st exitjump
    emit_byte st OP_POP

/-- `compiler.c:for_statement`. -/
def for_statement : Nat → CompilerState → CompilerState
  | 0, st => st
  | fuel + 1, st =>
    let st := beginscope st
    let st := consume st .TOKEN_LEFT_PAREN "Expected '(' after 'for'."
    let (m, st) := match_token st .TOKEN_SEMICOLON
    let st :=
      if m then st
      else
        let (mv, st) := match_token st .TOKEN_VAR
        if mv then var_declaration fuel st else expression_statement fuel st
    let loopstart := st.chunk.code.length
    let (m, st) := match_token st .TOKEN_SEMICOLON
    let (exitjump, st) :=
      if !m then
        let st := expression fuel st
        let st := consume st .TOKEN_SEMICOLON "Expected ';' after expression."
        let (ej, st) := emit_jump st OP_JUMP_IF_FALSE
        (some ej, emit_byte st OP_POP)
      else ((none : Option Nat), st)
    let (m, st) := match_token st .TOKEN_RIGHT_PAREN
    let (loopstart, st) :=
      if !m then
        let (bodyjump, st) := emit_jump st OP_JUMP
        let incrementstart := st.chunk.code.length
        let st := expression fuel st
        let st := emit_byte st OP_POP
        let st := consume st .TOKEN_RIGHT_PAREN
          "Expected ')' after for clauses."
        let st := emit_loop st loopstart
        (incrementstart, patch_jump st bodyjump)
      else (loopstart, st)
    let st := statement fuel st
    let st := emit_loop st loopstart
    let st :=
      match exitjump with
      | some ej => emit_byte (patch_jump st ej) OP_POP
      | none => st
    endscope st

end

/-- `compiler.c:end_compiler`. -/
def end_compiler (st : CompilerState) : CompilerState := emit_return st

/-- The `while (!match(TOKEN_EOF)) declaration();` loop of `compile`. -/
def compile_loop : Nat → CompilerState → CompilerState
  | 0, st => st
  | fuel + 1, st =>
    let (m, st) := match_token st .TOKEN_EOF
    if m then st else compile_loop fuel (declaration fuel st)

/-- `compiler.c:compile`: returns `!parser.haderror` and the final state
(whose `chunk` is the compiled chunk and whose `intern` holds the strings
interned during compilation). -/
def compile (source : List Char) (fuel : Nat) : Bool × CompilerState :=
  let st : CompilerState :=
    { sc := scanner_init source
      parser := ⟨default, default, false, false⟩
      chunk := init_chunk
      locals := []
      scopedepth := 0
      intern := initInternState }
  let st := advance st
  let st := compile_loop fuel st
  let st := end_compiler st
  (!st.parser.haderror, st)

/-- `vm.c:interpret_vm`: compile, then run on a fresh VM whose interner is
the one produced by compilation; `none` when the fuel runs out. -/
def interpret_vm (source : List Char) (cfuel rfuel : Nat) :
    Option LoxInterpretResult :=
  let (success, cst) := compile source cfuel
  if !success then some .INTERPRET_COMPILE_ERROR
  else
    match run_vm rfuel ⟨cst.chunk, 0, [], cst.intern, init_table, []⟩ with
    | .ok _ => some .INTERPRET_OK
    | .rtErr _ _ _ => some .INTERPRET_RUNTIME_ERROR
    | .outOfFuel _ => none

/-!
## Concrete fixtures used by the closed theorems
-/

/-- The interned string `"a"` (allocation id 0). -/
def strA : LoxString := ⟨0, 1, ['a'], hash_string ['a'] 1⟩

/-- The interned string `"x"` (allocation id 0). -/
def strX : LoxString := ⟨0, 1, ['x'], hash_string ['x'] 1⟩

/-- A VM about to execute `OP_EQUAL` on two references to the interned
string `"a"` — the state produced for `"a" == "a"` after both constant
loads. -/
def vmEqualAA : LoxVM :=
  ⟨⟨[OP_EQUAL], [1], []⟩, 0, [.valObject strA, .valObject strA],
   initInternState, init_table, []⟩

/-- A VM about to execute `OP_ADD` on the operands `1` and `"x"` — the state
reached while evaluating `1 + "x"`. -/
def vmAddMixed : LoxVM :=
  ⟨⟨[OP_ADD], [1], []⟩, 0, [.valNumber (.finite 1), .valObject strX],
   initInternState, init_table, []⟩

/-- The table produced by inserting `"a"` and then deleting it: it holds the
tombstone left by that deletion and no live binding. -/
def c4_table : LoxTable :=
  (table_delete (table_set init_table strA (.valBool true)).2 strA).2

/-- A VM about to execute `OP_SET_GLOBAL` naming `"a"` while the globals
table is empty (the state reached for an assignment to an undeclared
global). -/
def vmSetGlobalA : LoxVM :=
  ⟨⟨[OP_SET_GLOBAL, 0], [7, 7], [.valObject strA]⟩, 0,
   [.valNumber (.finite 1)], initInternState, init_table, []⟩

/-!
## Hash-table invariants

The open-addressed table is verified through the usual linear-probing
invariants: the entries array has `capacity` slots; `count` counts the
non-empty (live or tombstone) slots; the load factor keeps a genuinely empty
slot available; every live key is reachable from its home slot without
crossing a fully empty slot (`chain`); and live keys have pairwise distinct
identities (`uniq`).
-/

/-- The slot the probe loop reads at index `i` (the C code indexes the
entries array directly; under `TableWF` the index is in bounds). -/
def slotAt (entries : List LoxEntry) (i : Nat) : LoxEntry :=
  entries.getD i default

/-- A fully empty slot: no key, value `nil`. -/
def isEmptySlot (e : LoxEntry) : Prop := e.key = none ∧ e.value = .valNil

instance (e : LoxEntry) : Decidable (isEmptySlot e) := by
  unfold isEmptySlot; infer_instance

/-- A tombstone: no key, non-`nil` value. -/
def isTombSlot (e : LoxEntry) : Prop := e.key = none ∧ e.value ≠ .valNil

/-- The probe position reached `j` steps after home position `h`. -/
def probeIdx (cap h j : Nat) : Nat := (h + j) % cap

/-- The cyclic probe distance from home position `h` to slot `i`. -/
def probeDist (cap h i : Nat) : Nat := (cap + i - h) % cap

/-- A non-empty (live or tombstone) slot, as counted by `count`. -/
def notEmptyB (e : LoxEntry) : Bool := !decide (isEmptySlot e)

/-- A live slot. -/
def isLiveB (e : LoxEntry) : Bool := e.key.isSome

/-- Every live key is reachable from its home slot without crossing a fully
empty slot. -/
def chainP (entries : List LoxEntry) (cap : Nat) : Prop :=
  ∀ i, i < cap → ∀ k, (slotAt entries i).key = some k →
    ∀ j, j < probeDist cap (k.hash % cap) i →
      ¬ isEmptySlot (slotAt entries (probeIdx cap (k.hash % cap) j))

/-- Live keys occupy pairwise distinct slots per identity (no duplicate
pointers in the table). -/
def uniqP (entries : List LoxEntry) (cap : Nat) : Prop :=
  ∀ i j ki kj, i < cap → j < cap →
    (slotAt entries i).key = some ki → (slotAt entries j).key = some kj →
    ki.id = kj.id → i = j

/-- No tombstones: every key-less slot is fully empty. -/
def noTombP (entries : List LoxEntry) (cap : Nat) : Prop :=
  ∀ i, i < cap → (slotAt entries i).key = none →
    (slotAt entries i).value = .valNil

/-- The pair `(k, v)` occupies some live slot. -/
def liveMem (entries : List LoxEntry) (k : LoxString) (v : LoxValue) : Prop :=
  ∃ i, i < entries.length ∧ slotAt entries i = ⟨some k, v⟩

/-- The well-formedness invariant of a `LoxTable`. -/
structure TableWF (t : LoxTable) : Prop where
  len : t.entries.length = t.capacity
  count_eq : t.count = t.entries.countP notEmptyB
  load : t.count * 4 ≤ t.capacity * 3
  cap_shape : t.capacity = 0 ∨ 8 ≤ t.capacity
  chain : chainP t.entries t.capacity
  uniq : uniqP t.entries t.capacity

/-- The interning invariant: the strings table is well formed, every live
key records its own FNV-1a hash and a length within its buffer, live keys
carry allocator ids below `nextId`, and no two distinct live keys share
their byte content (each live string appears exactly once). -/
structure InternWF (st : InternState) : Prop where
  wf : TableWF st.strings
  keys_hash : ∀ k v, liveMem st.strings.entries k v →
    k.hash = hash_string k.buffer k.length
  keys_id : ∀ k v, liveMem st.strings.entries k v → k.id < st.nextId
  keys_len : ∀ k v, liveMem st.strings.entries k v →
    k.length ≤ k.buffer.length
  keys_uniq : ∀ k1 v1 k2 v2, liveMem st.strings.entries k1 v1 →
    liveMem st.strings.entries k2 v2 → k1.length = k2.length →
    k1.buffer.take k1.length = k2.buffer.take k2.length → k1 = k2

/-- A parse state whose previous token is `!=`, for the C8 witness. -/
def stBangEqual : CompilerState :=
  { sc := scanner_init []
    parser := ⟨default, ⟨.TOKEN_BANG_EQUAL, ['!', '='], 2, 1⟩, false, false⟩
    chunk := init_chunk
    locals := []
    scopedepth := 0
    intern := initInternState }

theorem probeIdx_lt (cap h j : Nat) (hcap : 0 < cap) : probeIdx cap h j < cap :=
  Nat.mod_lt _ hcap

theorem probeDist_lt (cap h i : Nat) (hcap : 0 < cap) : probeDist cap h i < cap :=
  Nat.mod_lt _ hcap

theorem probeIdx_probeDist (cap h i : Nat) (hh : h < cap) (hi : i < cap) :
    probeIdx cap h (probeDist cap h i) = i := by
  unfold probeIdx probeDist
  rcases le_or_lt h i with hle | hlt
  · have h1 : cap + i - h = cap + (i - h) := by omega
    have h2 : (cap + (i - h)) % cap = (i - h) % cap := by
      simp [Nat.add_mod_left]
    have h3 : (i - h) % cap = i - h := Nat.mod_eq_of_lt (by omega)
    rw [h1, h2, h3, Nat.add_sub_cancel' hle, Nat.mod_eq_of_lt hi]
  · have h1 : (cap + i - h) % cap = cap + i - h := Nat.mod_eq_of_lt (by omega)
    rw [h1]
    have h2 : h + (cap + i - h) = cap + i := by omega
    rw [h2, Nat.add_mod_left, Nat.mod_eq_of_lt hi]

theorem probeDist_probeIdx (cap h j : Nat) (hh : h < cap) (hcap : 0 < cap) :
    probeDist cap h (probeIdx cap h j) = j % cap := by
  unfold probeIdx probeDist
  have hmod : (h + j) % cap < cap := Nat.mod_lt _ hcap
  have h1 : cap + (h + j) % cap - h = cap - h + (h + j) % cap := by omega
  have h2 : (cap - h + (h + j) % cap) % cap = (cap - h + (h + j)) % cap :=
    Nat.ModEq.add_left (cap - h) (Nat.mod_modEq (h + j) cap)
  have h3 : cap - h + (h + j) = cap + j := by omega
  rw [h1, h2, h3, Nat.add_mod_left]

/-- Probe positions within one lap are distinct. -/
theorem probeIdx_inj (cap h : Nat) (hh : h < cap) (hcap : 0 < cap)
    {j1 j2 : Nat} (h1 : j1 < cap) (h2 : j2 < cap)
    (heq : probeIdx cap h j1 = probeIdx cap h j2) : j1 = j2 := by
  have e1 := probeDist_probeIdx cap h j1 hh hcap
  have e2 := probeDist_probeIdx cap h j2 hh hcap
  rw [heq] at e1
  rw [Nat.mod_eq_of_lt h1] at e1
  rw [Nat.mod_eq_of_lt h2] at e2
  omega

/-- The fresh table satisfies the invariant. -/
theorem tableWF_init : TableWF init_table := by
  refine ⟨rfl, rfl, by simp [init_table], Or.inl rfl, ?_, ?_⟩
  · intro i hi
    exact absurd hi (by simp [init_table])
  · intro i j ki kj hi
    exact absurd hi (by simp [init_table])

theorem slotAt_eq_getElem (entries : List LoxEntry) (i : Nat)
    (h : i < entries.length) : slotAt entries i = entries[i] :=
  List.getD_eq_getElem entries default h

theorem slotAt_set_self (entries : List LoxEntry) (m : Nat) (e : LoxEntry)
    (h : m < entries.length) : slotAt (entries.set m e) m = e := by
  rw [slotAt_eq_getElem _ _ (by simpa using h)]
  exact List.getElem_set_self (by simpa using h)

theorem slotAt_set_ne (entries : List LoxEntry) (m : Nat) (e : LoxEntry)
    (i : Nat) (h : m ≠ i) : slotAt (entries.set m e) i = slotAt entries i := by
  unfold slotAt
  rcases lt_or_ge i entries.length with hi | hi
  · rw [List.getD_eq_getElem _ _ (by simpa using hi),
      List.getD_eq_getElem _ _ hi]
    exact List.getElem_set_ne h _
  · rw [List.getD_eq_default _ _ (by simpa using hi),
      List.getD_eq_default _ _ hi]

/-- A table whose load is within bounds has a fully empty slot. -/
theorem exists_empty_slot (entries : List LoxEntry) (cap count : Nat)
    (hlen : entries.length = cap)
    (hcount : count = entries.countP notEmptyB)
    (hlt : count < cap) :
    ∃ i, i < cap ∧ isEmptySlot (slotAt entries i) := by
  by_contra hno
  push_neg at hno
  have hall : ∀ e ∈ entries, notEmptyB e = true := by
    intro e he
    obtain ⟨i, hi, rfl⟩ := List.mem_iff_getElem.mp he
    have := hno i (by omega)
    rw [slotAt_eq_getElem _ _ hi] at this
    simp [notEmptyB, this]
  have : entries.countP notEmptyB = entries.length := by
    rw [List.countP_eq_length_filter]
    exact List.filter_length_eq_length.mpr hall
  omega

theorem is_loxnil_iff (v : LoxValue) : is_loxnil v = true ↔ v = .valNil := by
  cases v <;> simp [is_loxnil]

/-- Stepping the probe start once commutes with the modulus. -/
theorem probe_mod_shift (cap idx j : Nat) :
    ((idx + 1) % cap + j) % cap = (idx + (j + 1)) % cap := by
  have h1 : ((idx + 1) % cap + j) % cap = ((idx + 1) + j) % cap :=
    Nat.ModEq.add_right j (Nat.mod_modEq (idx + 1) cap)
  rw [h1]
  congr 1
  omega

/-- The probe loop reaches a matching live slot at distance `d` when every
earlier slot on the path is a non-matching live slot or a tombstone. -/
theorem find_entry_go_hit (entries : List LoxEntry) (cap : Nat)
    (key : LoxString) :
    ∀ (d fuel idx : Nat) (tomb : Option Nat),
      d < fuel → idx < cap →
      (∃ k, (slotAt entries ((idx + d) % cap)).key = some k ∧
        k.id = key.id) →
      (∀ j, j < d →
        (∃ k', (slotAt entries ((idx + j) % cap)).key = some k' ∧
          k'.id ≠ key.id) ∨
        isTombSlot (slotAt entries ((idx + j) % cap))) →
      find_entry_go entries cap key fuel idx tomb = some ((idx + d) % cap) := by
  intro d
  induction d with
  | zero =>
    intro fuel idx tomb hfuel hidx htarget _
    cases fuel with
    | zero => omega
    | succ f =>
      have hgoal : (idx + 0) % cap = idx := by
        rw [Nat.add_zero, Nat.mod_eq_of_lt hidx]
      rw [hgoal] at htarget ⊢
      obtain ⟨k, hk, hkid⟩ := htarget
      simp only [slotAt] at hk
      simp only [find_entry_go, hk]
      simp [hkid]
  | succ d ih =>
    intro fuel idx tomb hfuel hidx htarget hpre
    cases fuel with
    | zero => omega
    | succ f =>
      have hcap : 0 < cap := by omega
      have h0 := hpre 0 (Nat.succ_pos d)
      rw [Nat.add_zero, Nat.mod_eq_of_lt hidx] at h0
      have htarget' : ∃ k, (slotAt entries
          (((idx + 1) % cap + d) % cap)).key = some k ∧ k.id = key.id := by
        rw [probe_mod_shift]
        exact htarget
      have hpre' : ∀ j, j < d →
          (∃ k', (slotAt entries (((idx + 1) % cap + j) % cap)).key = some k' ∧
            k'.id ≠ key.id) ∨
          isTombSlot (slotAt entries (((idx + 1) % cap + j) % cap)) := by
        intro j hj
        rw [probe_mod_shift]
        exact hpre (j + 1) (by omega)
      have hout : ((idx + 1) % cap + d) % cap = (idx + (d + 1)) % cap :=
        probe_mod_shift cap idx d
      rcases h0 with ⟨k', hk', hne⟩ | ⟨hknone, hval⟩
      · simp only [slotAt] at hk'
        simp only [find_entry_go, hk']
        rw [if_neg hne, ← hout]
        exact ih f ((idx + 1) % cap) tomb (by omega) (Nat.mod_lt _ hcap)
          htarget' hpre'
      · simp only [slotAt] at hknone
        have hnil : ¬ (is_loxnil (entries.getD idx default).value = true) := by
          rw [is_loxnil_iff]
          exact hval
        simp only [find_entry_go, hknone]
        rw [if_neg hnil, ← hout]
        exact ih f ((idx + 1) % cap) _ (by omega) (Nat.mod_lt _ hcap)
          htarget' hpre'

theorem probe_step (cap a : Nat) : (a % cap + 1) % cap = (a + 1) % cap :=
  Nat.ModEq.add_right 1 (Nat.mod_modEq a cap)

theorem is_loxnil_eq_false (v : LoxValue) (h : v ≠ .valNil) :
    is_loxnil v = false := by
  cases v <;> simp_all [is_loxnil]

/-- One unfolding step of the probe loop. -/
theorem find_entry_go_succ (entries : List LoxEntry) (cap : Nat)
    (key : LoxString) (fuel idx : Nat) (tomb : Option Nat) :
    find_entry_go entries cap key (fuel + 1) idx tomb =
      match (entries.getD idx default).key with
      | none =>
        if is_loxnil (entries.getD idx default).value then
          some (tomb.getD idx)
        else
          find_entry_go entries cap key fuel ((idx + 1) % cap)
            (match tomb with
             | none => some idx
             | some t => some t)
      | some k =>
        if k.id = key.id then some idx
        else find_entry_go entries cap key fuel ((idx + 1) % cap) tomb := rfl

/-- When no live slot on the path matches the key and a fully empty slot
exists at distance `t + d` from home `h` (the walk having already covered the
first `t` steps), the probe loop returns a key-less slot (the first
tombstone, or that empty slot) whose probe prefix contains no empty slot. -/
theorem find_entry_go_miss (entries : List LoxEntry) (cap : Nat)
    (key : LoxString) (h : Nat) :
    ∀ (d t fuel : Nat) (tomb : Option Nat),
      d < fuel →
      isEmptySlot (slotAt entries ((h + (t + d)) % cap)) →
      (∀ j, j < t + d → ¬ isEmptySlot (slotAt entries ((h + j) % cap))) →
      (∀ j, j < t + d → ∀ k',
        (slotAt entries ((h + j) % cap)).key = some k' → k'.id ≠ key.id) →
      (tomb = none ∨ ∃ jt tm, tomb = some tm ∧ jt < t ∧
        tm = (h + jt) % cap ∧ isTombSlot (slotAt entries tm)) →
      ∃ jm, jm ≤ t + d ∧
        find_entry_go entries cap key fuel ((h + t) % cap) tomb =
          some ((h + jm) % cap) ∧
        (slotAt entries ((h + jm) % cap)).key = none ∧
        (∀ j, j < jm → ¬ isEmptySlot (slotAt entries ((h + j) % cap))) := by
  intro d
  induction d with
  | zero =>
    intro t fuel tomb hfuel hempty hpre hnm htomb
    cases fuel with
    | zero => omega
    | succ f =>
      rw [Nat.add_zero] at hempty
      obtain ⟨hkey, hval⟩ := hempty
      have hkeyD : (entries.getD ((h + t) % cap) default).key = none := hkey
      have hnil : is_loxnil (entries.getD ((h + t) % cap) default).value
          = true := by
        rw [is_loxnil_iff]
        exact hval
      rw [find_entry_go_succ, hkeyD]
      simp only [hnil, if_pos]
      rcases htomb with rfl | ⟨jt, tm, rfl, hjt, htme, htm⟩
      · refine ⟨t, le_refl _, rfl, hkey, ?_⟩
        intro j hj
        exact hpre j (by omega)
      · refine ⟨jt, by omega, ?_, ?_, ?_⟩
        · simp [Option.getD, htme]
        · rw [← htme]
          exact htm.1
        · intro j hj
          exact hpre j (by omega)
  | succ d ih =>
    intro t fuel tomb hfuel hempty hpre hnm htomb
    cases fuel with
    | zero => omega
    | succ f =>
      have hne := hpre t (by omega)
      have hstep : ((h + t) % cap + 1) % cap = (h + (t + 1)) % cap := by
        rw [probe_step, Nat.add_assoc]
      have hempty' : isEmptySlot (slotAt entries ((h + (t + 1 + d)) % cap)) := by
        have heq : t + 1 + d = t + (d + 1) := by omega
        rw [heq]
        exact hempty
      have hpre' : ∀ j, j < t + 1 + d →
          ¬ isEmptySlot (slotAt entries ((h + j) % cap)) := by
        intro j hj
        exact hpre j (by omega)
      have hnm' : ∀ j, j < t + 1 + d → ∀ k',
          (slotAt entries ((h + j) % cap)).key = some k' →
          k'.id ≠ key.id := by
        intro j hj
        exact hnm j (by omega)
      rcases hcase : (slotAt entries ((h + t) % cap)).key with _ | k'
      · -- a tombstone: no key, but not empty
        have hval : (slotAt entries ((h + t) % cap)).value ≠ .valNil := by
          intro hv
          exact hne ⟨hcase, hv⟩
        have hnil : is_loxnil
            (entries.getD ((h + t) % cap) default).value = false :=
          is_loxnil_eq_false _ hval
        have hcaseD : (entries.getD ((h + t) % cap) default).key = none := hcase
        rw [find_entry_go_succ, hcaseD]
        simp only [hnil, Bool.false_eq_true, if_false, hstep]
        rcases htomb with rfl | ⟨jt, tm, rfl, hjt, htm1, htm2⟩
        · obtain ⟨jm, hjm, hfind, hkeyn, hprefix⟩ :=
            ih (t + 1) f (some ((h + t) % cap)) (by omega) hempty' hpre' hnm'
              (Or.inr ⟨t, (h + t) % cap, rfl, by omega, rfl, ⟨hcase, hval⟩⟩)
          exact ⟨jm, by omega, hfind, hkeyn, hprefix⟩
        · obtain ⟨jm, hjm, hfind, hkeyn, hprefix⟩ :=
            ih (t + 1) f (some tm) (by omega) hempty' hpre' hnm'
              (Or.inr ⟨jt, tm, rfl, by omega, htm1, htm2⟩)
          exact ⟨jm, by omega, hfind, hkeyn, hprefix⟩
      · -- a live slot whose key does not match
        have hne' : k'.id ≠ key.id := hnm t (by omega) k' hcase
        have hcaseD : (entries.getD ((h + t) % cap) default).key = some k' :=
          hcase
        rw [find_entry_go_succ, hcaseD]
        simp only []
        rw [if_neg hne', hstep]
        have htomb' : tomb = none ∨ ∃ jt tm, tomb = some tm ∧ jt < t + 1 ∧
            tm = (h + jt) % cap ∧ isTombSlot (slotAt entries tm) := by
          rcases htomb with rfl | ⟨jt, tm, rfl, hjt, htm1, htm2⟩
          · exact Or.inl rfl
          · exact Or.inr ⟨jt, tm, rfl, by omega, htm1, htm2⟩
        obtain ⟨jm, hjm, hfind, hkeyn, hprefix⟩ :=
          ih (t + 1) f tomb (by omega) hempty' hpre' hnm' htomb'
        exact ⟨jm, by omega, hfind, hkeyn, hprefix⟩

/-- `find_entry` finds the slot of a stored key (raw-parts version). -/
theorem find_entry_hit (entries : List LoxEntry) (cap : Nat) (k : LoxString)
    (hch : chainP entries cap)
    (hu : uniqP entries cap) (i : Nat) (hi : i < cap)
    (hk : (slotAt entries i).key = some k) :
    find_entry entries cap k = some i := by
  have hcap : 0 < cap := by omega
  have hh : k.hash % cap < cap := Nat.mod_lt _ hcap
  have hd : probeDist cap (k.hash % cap) i < cap := probeDist_lt _ _ _ hcap
  have target : (k.hash % cap + probeDist cap (k.hash % cap) i) % cap = i :=
    probeIdx_probeDist cap (k.hash % cap) i hh hi
  have hgo := find_entry_go_hit entries cap k (probeDist cap (k.hash % cap) i)
    cap (k.hash % cap) none hd hh ?_ ?_
  · unfold find_entry
    rw [hgo, target]
  · rw [target]
    exact ⟨k, hk, rfl⟩
  · intro j hj
    have hpj : probeIdx cap (k.hash % cap) j < cap := probeIdx_lt _ _ _ hcap
    have hnem := hch i hi k hk j hj
    rcases Option.eq_none_or_eq_some
        ((slotAt entries ((k.hash % cap + j) % cap)).key) with hnone | ⟨k', hk'⟩
    · right
      exact ⟨hnone, fun hv => hnem ⟨hnone, hv⟩⟩
    · left
      refine ⟨k', hk', fun hid => ?_⟩
      have heq := hu _ i k' k hpj hi hk' hk hid
      have h2 : probeDist cap (k.hash % cap) i = j % cap := by
        rw [← heq]
        exact probeDist_probeIdx cap (k.hash % cap) j hh hcap
      rw [h2] at hj
      have := Nat.mod_le j cap
      omega

/-- When no live slot matches the key, `find_entry` returns a key-less slot
whose probe prefix has no fully empty slot (raw-parts version). -/
theorem find_entry_miss (entries : List LoxEntry) (cap : Nat) (k : LoxString)
    (hcap : 0 < cap)
    (hex : ∃ i, i < cap ∧ isEmptySlot (slotAt entries i))
    (habs : ∀ i, i < cap → ∀ k', (slotAt entries i).key = some k' →
      k'.id ≠ k.id) :
    ∃ m, find_entry entries cap k = some m ∧ m < cap ∧
      (slotAt entries m).key = none ∧
      ∀ j, j < probeDist cap (k.hash % cap) m →
        ¬ isEmptySlot (slotAt entries (probeIdx cap (k.hash % cap) j)) := by
  have hh : k.hash % cap < cap := Nat.mod_lt _ hcap
  obtain ⟨i0, hi0, hempty0⟩ := hex
  have hP : ∃ j, isEmptySlot
      (slotAt entries ((k.hash % cap + j) % cap)) := by
    refine ⟨probeDist cap (k.hash % cap) i0, ?_⟩
    have e := probeIdx_probeDist cap (k.hash % cap) i0 hh hi0
    show isEmptySlot (slotAt entries
      (probeIdx cap (k.hash % cap) (probeDist cap (k.hash % cap) i0)))
    rw [e]
    exact hempty0
  classical
  have hd0 : isEmptySlot
      (slotAt entries ((k.hash % cap + Nat.find hP) % cap)) :=
    Nat.find_spec hP
  have hd0min : ∀ j, j < Nat.find hP →
      ¬ isEmptySlot (slotAt entries ((k.hash % cap + j) % cap)) :=
    fun j hj => Nat.find_min hP hj
  have hd0lt : Nat.find hP < cap := by
    have hle : Nat.find hP ≤ probeDist cap (k.hash % cap) i0 := by
      apply Nat.find_min'
      have e := probeIdx_probeDist cap (k.hash % cap) i0 hh hi0
      show isEmptySlot (slotAt entries
        (probeIdx cap (k.hash % cap) (probeDist cap (k.hash % cap) i0)))
      rw [e]
      exact hempty0
    have := probeDist_lt cap (k.hash % cap) i0 hcap
    omega
  have hmiss := find_entry_go_miss entries cap k (k.hash % cap) (Nat.find hP)
    0 cap none hd0lt (by simpa using hd0) (by simpa using hd0min)
    (by
      intro j hj k' hk'
      exact habs _ (Nat.mod_lt _ hcap) k' hk')
    (Or.inl rfl)
  obtain ⟨jm, hjm, hfind, hkeyn, hprefix⟩ := hmiss
  refine ⟨(k.hash % cap + jm) % cap, ?_, Nat.mod_lt _ hcap, hkeyn, ?_⟩
  · rw [← hfind]
    unfold find_entry
    congr 1
    rw [Nat.add_zero, Nat.mod_eq_of_lt hh]
  · intro j hj
    have h2 : probeDist cap (k.hash % cap) ((k.hash % cap + jm) % cap)
        = jm % cap := probeDist_probeIdx cap (k.hash % cap) jm hh hcap
    rw [h2] at hj
    have hjmle : jm % cap ≤ jm := Nat.mod_le _ _
    exact hprefix j (by omega)

/-- A live slot makes the count positive. -/
theorem count_pos_of_live (t : LoxTable) (hwf : TableWF t) (i : Nat)
    (hi : i < t.capacity) (k : LoxString)
    (hk : (slotAt t.entries i).key = some k) : t.count ≠ 0 := by
  have hle : i < t.entries.length := by rw [hwf.len]; exact hi
  have hne : notEmptyB t.entries[i] = true := by
    rw [← slotAt_eq_getElem _ _ hle]
    simp only [notEmptyB, Bool.not_eq_true']
    simp [isEmptySlot, hk]
  have hpos : 0 < t.entries.countP notEmptyB :=
    List.countP_pos_iff.mpr ⟨_, List.getElem_mem hle, hne⟩
  rw [hwf.count_eq]
  omega

/-- `table_get` returns the value stored with the key. -/
theorem table_get_hit (t : LoxTable) (k : LoxString) (hwf : TableWF t)
    (i : Nat) (hi : i < t.capacity)
    (hk : (slotAt t.entries i).key = some k) :
    table_get t k = some (slotAt t.entries i).value := by
  have hcount := count_pos_of_live t hwf i hi k hk
  unfold table_get
  rw [if_neg hcount,
    find_entry_hit t.entries t.capacity k hwf.chain hwf.uniq i hi hk]
  have hkD : (t.entries.getD i default).key = some k := hk
  simp only [hkD]
  rfl

/-- `table_get` reports absence when no live slot matches the key. -/
theorem table_get_miss (t : LoxTable) (k : LoxString) (hwf : TableWF t)
    (habs : ∀ i, i < t.capacity → ∀ k',
      (slotAt t.entries i).key = some k' → k'.id ≠ k.id) :
    table_get t k = none := by
  by_cases h0 : t.count = 0
  · unfold table_get
    rw [if_pos h0]
  · unfold table_get
    rw [if_neg h0]
    have hcap : 0 < t.capacity := by
      have h1 : t.entries.countP notEmptyB ≤ t.entries.length :=
        List.countP_le_length _
      have := hwf.count_eq
      have := hwf.len
      omega
    have hlt : t.count < t.capacity := by
      have := hwf.load
      omega
    have hex := exists_empty_slot t.entries t.capacity t.count hwf.len
      hwf.count_eq hlt
    obtain ⟨m, hfind, hm, hkeyn, _⟩ :=
      find_entry_miss t.entries t.capacity k hcap hex habs
    rw [hfind]
    have hkD : (t.entries.getD m default).key = none := hkeyn
    simp only [hkD]

/-- Under pointer-determinacy for `k`, `table_get k = none` is exactly the
absence of a live slot whose key has `k`'s identity. -/
theorem table_get_none_iff (t : LoxTable) (k : LoxString) (hwf : TableWF t)
    (hdet : ∀ i k', i < t.capacity → (slotAt t.entries i).key = some k' →
      k'.id = k.id → k' = k) :
    table_get t k = none ↔ ∀ i, i < t.capacity → ∀ k',
      (slotAt t.entries i).key = some k' → k'.id ≠ k.id := by
  constructor
  · intro hnone i hi k' hk' hid
    have hk2 : (slotAt t.entries i).key = some k := by
      rw [hk', hdet i k' hi hk' hid]
    have hhit := table_get_hit t k hwf i hi hk2
    rw [hnone] at hhit
    exact Option.noConfusion hhit
  · exact table_get_miss t k hwf

/-- `table_delete` on a stored key tombstones its slot, reports `true`, and
preserves the invariant; a subsequent `table_get` of the key reports it
absent. -/
theorem table_delete_spec (t : LoxTable) (k : LoxString) (hwf : TableWF t)
    (i : Nat) (hi : i < t.capacity)
    (hk : (slotAt t.entries i).key = some k) :
    table_delete t k = (true,
      ⟨t.count, t.capacity, t.entries.set i ⟨none, .valBool true⟩⟩) ∧
    TableWF ⟨t.count, t.capacity, t.entries.set i ⟨none, .valBool true⟩⟩ ∧
    table_get ⟨t.count, t.capacity, t.entries.set i ⟨none, .valBool true⟩⟩ k
      = none := by
  have hcount := count_pos_of_live t hwf i hi k hk
  have hle : i < t.entries.length := by rw [hwf.len]; exact hi
  have hdel : table_delete t k = (true,
      ⟨t.count, t.capacity, t.entries.set i ⟨none, .valBool true⟩⟩) := by
    unfold table_delete
    rw [if_neg hcount,
      find_entry_hit t.entries t.capacity k hwf.chain hwf.uniq i hi hk]
    have hkD : (t.entries.getD i default).key = some k := hk
    simp only [hkD]
  set es' := t.entries.set i ⟨none, .valBool true⟩ with hes'
  have hslot_self : slotAt es' i = ⟨none, .valBool true⟩ :=
    slotAt_set_self _ _ _ hle
  have hslot_ne : ∀ j, j ≠ i → slotAt es' j = slotAt t.entries j := by
    intro j hj
    exact slotAt_set_ne _ _ _ _ (fun h => hj h.symm)
  have hnotEmpty' : ∀ j, ¬ isEmptySlot (slotAt t.entries j) →
      ¬ isEmptySlot (slotAt es' j) := by
    intro j hne hempty
    by_cases hij : j = i
    · subst hij
      rw [hslot_self] at hempty
      exact absurd hempty.2 (by simp)
    · rw [hslot_ne j hij] at hempty
      exact hne hempty
  have hwf' : TableWF ⟨t.count, t.capacity, es'⟩ := by
    refine ⟨?_, ?_, hwf.load, hwf.cap_shape, ?_, ?_⟩
    · simp [hes', hwf.len]
    · show t.count = es'.countP notEmptyB
      rw [hwf.count_eq, hes', List.countP_set _ _ _ _ hle]
      have h1 : notEmptyB t.entries[i] = true := by
        rw [← slotAt_eq_getElem _ _ hle]
        simp only [notEmptyB, Bool.not_eq_true']
        simp [isEmptySlot, hk]
      have h2 : notEmptyB (⟨none, .valBool true⟩ : LoxEntry) = true := by
        simp [notEmptyB, isEmptySlot]
      rw [h1, h2]
      have : 0 < List.countP notEmptyB t.entries :=
        List.countP_pos_iff.mpr ⟨_, List.getElem_mem hle, h1⟩
      simp
      omega
    · intro i' hi' k' hk' j hj
      by_cases hii : i' = i
      · subst hii
        rw [hslot_self] at hk'
        exact Option.noConfusion hk'
      · rw [hslot_ne i' hii] at hk'
        exact hnotEmpty' _ (hwf.chain i' hi' k' hk' j hj)
    · intro i' j' ki kj hi' hj' hki hkj hid
      by_cases hii : i' = i
      · subst hii
        rw [hslot_self] at hki
        exact Option.noConfusion hki
      · by_cases hjj : j' = i
        · subst hjj
          rw [hslot_self] at hkj
          exact Option.noConfusion hkj
        · rw [hslot_ne i' hii] at hki
          rw [hslot_ne j' hjj] at hkj
          exact hwf.uniq i' j' ki kj hi' hj' hki hkj hid
  refine ⟨hdel, hwf', ?_⟩
  apply table_get_miss _ _ hwf'
  intro i' hi' k' hk' hid
  by_cases hii : i' = i
  · subst hii
    rw [hslot_self] at hk'
    exact Option.noConfusion hk'
  · rw [hslot_ne i' hii] at hk'
    have := hwf.uniq i' i k' k hi' hi hk' hk
    -- k'.id = k.id would force i' = i
    exact hii (this hid)

/-- The default (zero-initialised) entry has no key. -/
theorem default_key_none : (default : LoxEntry).key = none := rfl

/-- The default (zero-initialised) entry holds `nil`. -/
theorem default_value_nil : (default : LoxEntry).value = .valNil := rfl

/-- Every slot of a freshly allocated array is the default entry. -/
theorem slotAt_replicate (n i : Nat) :
    slotAt (List.replicate n (default : LoxEntry)) i = default := by
  unfold slotAt
  rcases lt_or_ge i n with h | h
  · rw [List.getD_eq_getElem _ _ (by simpa using h), List.getElem_replicate]
  · rw [List.getD_eq_default _ _ (by simpa using h)]

/-- `(k, v)` sits in a live slot iff the literal entry is a list member. -/
theorem liveMem_iff_mem (es : List LoxEntry) (k : LoxString) (v : LoxValue) :
    liveMem es k v ↔ (⟨some k, v⟩ : LoxEntry) ∈ es := by
  unfold liveMem
  rw [List.mem_iff_getElem]
  constructor
  · rintro ⟨i, hi, hs⟩
    exact ⟨i, hi, by rw [← slotAt_eq_getElem _ _ hi]; exact hs⟩
  · rintro ⟨i, hi, hs⟩
    exact ⟨i, hi, by rw [slotAt_eq_getElem _ _ hi]; exact hs⟩

/-- In a tombstone-free array, "non-empty" and "live" count the same slots. -/
theorem countP_notEmpty_of_noTomb (es : List LoxEntry) (cap : Nat)
    (hlen : es.length = cap) (hnt : noTombP es cap) :
    es.countP notEmptyB = es.countP isLiveB := by
  apply List.countP_congr
  intro e he
  obtain ⟨i, hi, rfl⟩ := List.mem_iff_getElem.mp he
  have hs : slotAt es i = es[i] := slotAt_eq_getElem es i hi
  rw [← hs]
  rcases hcase : (slotAt es i).key with _ | k
  · have hv : (slotAt es i).value = .valNil := hnt i (by omega) hcase
    simp [notEmptyB, isLiveB, isEmptySlot, hcase, hv]
  · simp [notEmptyB, isLiveB, isEmptySlot, hcase]

/-- Overwriting a slot with a live entry cannot create a fully empty slot. -/
theorem isEmptySlot_of_set_live (es : List LoxEntry) (m : Nat)
    (k : LoxString) (v : LoxValue) (i : Nat)
    (h : isEmptySlot (slotAt (es.set m ⟨some k, v⟩) i)) :
    isEmptySlot (slotAt es i) := by
  by_cases him : m = i
  · subst him
    by_cases hm : m < es.length
    · rw [slotAt_set_self _ _ _ hm] at h
      exact absurd h.1 (by simp)
    · rw [List.set_eq_of_length_le (by omega)] at h
      exact h
  · rw [slotAt_set_ne _ _ _ _ him] at h
    exact h

/-- `uniqP` restated as list pairwise distinctness of live key identities. -/
theorem pairwise_of_uniq (es : List LoxEntry) (cap : Nat)
    (hlen : es.length = cap) (hu : uniqP es cap) :
    es.Pairwise (fun e1 e2 => ∀ k1 k2, e1.key = some k1 →
      e2.key = some k2 → k1.id ≠ k2.id) := by
  rw [List.pairwise_iff_getElem]
  intro i j hi hj hij k1 k2 hk1 hk2 hid
  have h1 : (slotAt es i).key = some k1 := by
    rw [slotAt_eq_getElem _ _ hi]; exact hk1
  have h2 : (slotAt es j).key = some k2 := by
    rw [slotAt_eq_getElem _ _ hj]; exact hk2
  have := hu i j k1 k2 (by omega) (by omega) h1 h2 hid
  omega

/-- Invariant of the `adjust_capacity` re-insertion fold: starting from a
tombstone-free, chained, duplicate-free array with enough headroom, folding
`adjust_step` over a list of pairwise-distinct live sources disjoint from the
array re-inserts exactly the live sources and preserves all invariants. -/
theorem adjust_fold (cap' : Nat) :
    ∀ (rem : List LoxEntry) (cnt : Nat) (es : List LoxEntry),
      es.length = cap' →
      cnt = es.countP isLiveB →
      noTombP es cap' →
      chainP es cap' →
      uniqP es cap' →
      cnt + rem.countP isLiveB < cap' →
      (∀ e, e ∈ rem → ∀ ke, e.key = some ke → ∀ i, i < cap' →
        ∀ k2, (slotAt es i).key = some k2 → k2.id ≠ ke.id) →
      rem.Pairwise (fun e1 e2 => ∀ k1 k2, e1.key = some k1 →
        e2.key = some k2 → k1.id ≠ k2.id) →
      ∀ res : Nat × List LoxEntry,
        res = rem.foldl (adjust_step cap') (cnt, es) →
        res.2.length = cap' ∧
        res.1 = res.2.countP isLiveB ∧
        noTombP res.2 cap' ∧
        chainP res.2 cap' ∧
        uniqP res.2 cap' ∧
        res.1 = cnt + rem.countP isLiveB ∧
        (∀ k v, liveMem res.2 k v ↔ liveMem es k v ∨
          (⟨some k, v⟩ : LoxEntry) ∈ rem) := by
  intro rem
  induction rem with
  | nil =>
    intro cnt es hlen hcnt hnt hch hu hbound hdisj hpw res hres
    subst hres
    simp only [List.foldl_nil]
    refine ⟨hlen, hcnt, hnt, hch, hu, by simp, ?_⟩
    intro k v
    simp
  | cons e rem' ih =>
    intro cnt es hlen hcnt hnt hch hu hbound hdisj hpw res hres
    obtain ⟨hpe, hpw'⟩ := List.pairwise_cons.mp hpw
    rw [List.foldl_cons] at hres
    rcases hke : e.key with _ | k0
    · -- key-less source: the step is a no-op
      have hstep : adjust_step cap' (cnt, es) e = (cnt, es) := by
        simp only [adjust_step, hke]
      rw [hstep] at hres
      have hdead : isLiveB e = false := by simp [isLiveB, hke]
      have hbound' : cnt + rem'.countP isLiveB < cap' := by
        rw [List.countP_cons, hdead] at hbound
        simpa using hbound
      obtain ⟨h1, h2, h3, h4, h5, h6, h7⟩ :=
        ih cnt es hlen hcnt hnt hch hu hbound'
          (fun e' he' => hdisj e' (List.mem_cons_of_mem _ he')) hpw' res hres
      refine ⟨h1, h2, h3, h4, h5, ?_, ?_⟩
      · rw [h6, List.countP_cons, hdead]
        simp
      · intro k v
        rw [h7 k v, List.mem_cons]
        have hne : ¬ ((⟨some k, v⟩ : LoxEntry) = e) := by
          intro heq
          rw [← heq] at hke
          exact Option.noConfusion hke
        tauto
    · -- live source: inserted at the probe-miss slot of its key
      have hcap : 0 < cap' := by omega
      have hlive : isLiveB e = true := by simp [isLiveB, hke]
      have hcnt_lt : cnt < cap' := by
        rw [List.countP_cons, hlive] at hbound
        simp at hbound
        omega
      have habs0 : ∀ i, i < cap' → ∀ k2, (slotAt es i).key = some k2 →
          k2.id ≠ k0.id :=
        fun i hi k2 hk2 => hdisj e (List.mem_cons_self _ _) k0 hke i hi k2 hk2
      have hex : ∃ i, i < cap' ∧ isEmptySlot (slotAt es i) :=
        exists_empty_slot es cap' cnt hlen
          (by rw [countP_notEmpty_of_noTomb es cap' hlen hnt]; exact hcnt)
          hcnt_lt
      obtain ⟨m, hfind, hm, hmkey, hmchain⟩ :=
        find_entry_miss es cap' k0 hcap hex habs0
      have hm_len : m < es.length := by omega
      have hmempty : isEmptySlot (slotAt es m) := ⟨hmkey, hnt m hm hmkey⟩
      have hstep : adjust_step cap' (cnt, es) e =
          (cnt + 1, es.set m ⟨some k0, e.value⟩) := by
        simp only [adjust_step, hke, hfind]
      rw [hstep] at hres
      have hlen_eq : (es.set m ⟨some k0, e.value⟩).length = es.length :=
        List.length_set es m _
      have hslot_self : slotAt (es.set m ⟨some k0, e.value⟩) m =
          ⟨some k0, e.value⟩ := slotAt_set_self _ _ _ hm_len
      have hslot_ne : ∀ j, j ≠ m →
          slotAt (es.set m ⟨some k0, e.value⟩) j = slotAt es j :=
        fun j hj => slotAt_set_ne _ _ _ _ (fun h => hj h.symm)
      have hlen2 : (es.set m ⟨some k0, e.value⟩).length = cap' := by
        rw [hlen_eq]; exact hlen
      have hcnt2 : cnt + 1 = (es.set m ⟨some k0, e.value⟩).countP isLiveB := by
        rw [List.countP_set _ _ _ _ hm_len]
        have hLm : isLiveB es[m] = false := by
          rw [← slotAt_eq_getElem _ _ hm_len]
          simp [isLiveB, hmkey]
        have hLnew : isLiveB (⟨some k0, e.value⟩ : LoxEntry) = true := by
          simp [isLiveB]
        rw [hLm, hLnew]
        simp
        omega
      have hnt2 : noTombP (es.set m ⟨some k0, e.value⟩) cap' := by
        intro i hi hkey
        by_cases him : i = m
        · subst him
          rw [hslot_self] at hkey
          exact Option.noConfusion hkey
        · rw [hslot_ne i him] at hkey ⊢
          exact hnt i hi hkey
      have hch2 : chainP (es.set m ⟨some k0, e.value⟩) cap' := by
        intro i hi k hk j hj hempty
        have hempty' : isEmptySlot
            (slotAt es (probeIdx cap' (k.hash % cap') j)) :=
          isEmptySlot_of_set_live es m k0 e.value _ hempty
        by_cases him : i = m
        · subst him
          rw [hslot_self] at hk
          have hkk : k0 = k := by injection hk
          subst hkk
          exact hmchain j hj hempty'
        · rw [hslot_ne i him] at hk
          exact hch i hi k hk j hj hempty'
      have hu2 : uniqP (es.set m ⟨some k0, e.value⟩) cap' := by
        intro i j ki kj hi hj hki hkj hid
        by_cases him : i = m
        · by_cases hjm : j = m
          · omega
          · subst him
            rw [hslot_self] at hki
            have hkk : k0 = ki := by injection hki
            rw [hslot_ne j hjm] at hkj
            have habs := habs0 j hj kj hkj
            rw [hkk] at habs
            exact absurd hid.symm habs
        · by_cases hjm : j = m
          · subst hjm
            rw [hslot_self] at hkj
            have hkk : k0 = kj := by injection hkj
            rw [hslot_ne i him] at hki
            have habs := habs0 i hi ki hki
            rw [hkk] at habs
            exact absurd hid habs
          · rw [hslot_ne i him] at hki
            rw [hslot_ne j hjm] at hkj
            exact hu i j ki kj hi hj hki hkj hid
      have hmem2 : ∀ k v, liveMem (es.set m ⟨some k0, e.value⟩) k v ↔
          (k = k0 ∧ v = e.value) ∨ liveMem es k v := by
        intro k v
        constructor
        · rintro ⟨i, hi, hs⟩
          by_cases him : i = m
          · subst him
            rw [hslot_self] at hs
            refine Or.inl ⟨?_, ?_⟩
            · exact (Option.some.inj (congrArg LoxEntry.key hs)).symm
            · exact (congrArg LoxEntry.value hs).symm
          · rw [hslot_ne i him] at hs
            exact Or.inr ⟨i, by rw [hlen_eq] at hi; exact hi, hs⟩
        · rintro (⟨rfl, rfl⟩ | ⟨i, hi, hs⟩)
          · exact ⟨m, by rw [hlen_eq]; exact hm_len, hslot_self⟩
          · have him : i ≠ m := by
              intro h
              subst h
              rw [hs] at hmempty
              exact Option.noConfusion hmempty.1
            exact ⟨i, by rw [hlen_eq]; exact hi,
              by rw [hslot_ne i him]; exact hs⟩
      have hbound2 : cnt + 1 + rem'.countP isLiveB < cap' := by
        rw [List.countP_cons, hlive] at hbound
        simp at hbound
        omega
      have hdisj2 : ∀ e', e' ∈ rem' → ∀ ke, e'.key = some ke →
          ∀ i, i < cap' → ∀ k2,
          (slotAt (es.set m ⟨some k0, e.value⟩) i).key = some k2 →
          k2.id ≠ ke.id := by
        intro e' he' ke hke' i hi k2 hk2
        by_cases him : i = m
        · subst him
          rw [hslot_self] at hk2
          have hkk : k0 = k2 := by injection hk2
          rw [← hkk]
          exact hpe e' he' k0 ke hke hke'
        · rw [hslot_ne i him] at hk2
          exact hdisj e' (List.mem_cons_of_mem _ he') ke hke' i hi k2 hk2
      obtain ⟨h1, h2, h3, h4, h5, h6, h7⟩ :=
        ih (cnt + 1) (es.set m ⟨some k0, e.value⟩) hlen2 hcnt2 hnt2 hch2 hu2
          hbound2 hdisj2 hpw' res hres
      have he_eta : e = (⟨some k0, e.value⟩ : LoxEntry) := by
        obtain ⟨ky, vl⟩ := e
        have hky : ky = some k0 := hke
        rw [hky]
      refine ⟨h1, h2, h3, h4, h5, ?_, ?_⟩
      · rw [h6, List.countP_cons, hlive]
        simp
        omega
      · intro k v
        rw [h7 k v, hmem2 k v, List.mem_cons]
        constructor
        · rintro ((⟨rfl, rfl⟩ | hl) | hr)
          · exact Or.inr (Or.inl he_eta.symm)
          · exact Or.inl hl
          · exact Or.inr (Or.inr hr)
        · rintro (hl | heq | hr)
          · exact Or.inl (Or.inr hl)
          · rw [he_eta] at heq
            refine Or.inl (Or.inl ⟨?_, ?_⟩)
            · exact Option.some.inj (congrArg LoxEntry.key heq)
            · exact congrArg LoxEntry.value heq
          · exact Or.inr hr

/-- `table.c:adjust_capacity` re-inserts exactly the live entries of the old
array into a fresh array of the requested capacity: the new count is the old
live count, the result is tombstone-free, chained, duplicate-free, and holds
exactly the old live pairs. -/
theorem adjust_capacity_spec (t : LoxTable) (cap' : Nat) (hwf : TableWF t)
    (hlt : t.entries.countP isLiveB < cap') :
    (adjust_capacity t cap').capacity = cap' ∧
    (adjust_capacity t cap').entries.length = cap' ∧
    (adjust_capacity t cap').count = t.entries.countP isLiveB ∧
    (adjust_capacity t cap').count =
      (adjust_capacity t cap').entries.countP isLiveB ∧
    noTombP (adjust_capacity t cap').entries cap' ∧
    chainP (adjust_capacity t cap').entries cap' ∧
    uniqP (adjust_capacity t cap').entries cap' ∧
    (∀ k v, liveMem (adjust_capacity t cap').entries k v ↔
      liveMem t.entries k v) := by
  have hlen0 : (List.replicate cap' (default : LoxEntry)).length = cap' :=
    List.length_replicate _ _
  have hcnt0 : (0 : Nat) =
      (List.replicate cap' (default : LoxEntry)).countP isLiveB := by
    symm
    rw [List.countP_eq_zero]
    intro a ha
    rw [List.eq_of_mem_replicate ha]
    simp [isLiveB, default_key_none]
  have hnt0 : noTombP (List.replicate cap' (default : LoxEntry)) cap' := by
    intro i hi hk
    rw [slotAt_replicate]
    exact default_value_nil
  have hch0 : chainP (List.replicate cap' (default : LoxEntry)) cap' := by
    intro i hi k hk
    rw [slotAt_replicate, default_key_none] at hk
    exact absurd hk (by simp)
  have hu0 : uniqP (List.replicate cap' (default : LoxEntry)) cap' := by
    intro i j ki kj hi hj hki hkj hid
    rw [slotAt_replicate, default_key_none] at hki
    exact absurd hki (by simp)
  have hbound0 : 0 + t.entries.countP isLiveB < cap' := by omega
  have hdisj0 : ∀ e, e ∈ t.entries → ∀ ke, e.key = some ke →
      ∀ i, i < cap' → ∀ k2,
      (slotAt (List.replicate cap' (default : LoxEntry)) i).key = some k2 →
      k2.id ≠ ke.id := by
    intro e he ke hke i hi k2 hk2
    rw [slotAt_replicate, default_key_none] at hk2
    exact absurd hk2 (by simp)
  have hpw0 := pairwise_of_uniq t.entries t.capacity hwf.len hwf.uniq
  obtain ⟨h1, h2, h3, h4, h5, h6, h7⟩ :=
    adjust_fold cap' t.entries 0 (List.replicate cap' default)
      hlen0 hcnt0 hnt0 hch0 hu0 hbound0 hdisj0 hpw0
      (t.entries.foldl (adjust_step cap') (0, List.replicate cap' default)) rfl
  have hnolive : ∀ k v,
      ¬ liveMem (List.replicate cap' (default : LoxEntry)) k v := by
    rintro k v ⟨i, hi, hs⟩
    have hkey := congrArg LoxEntry.key hs
    rw [slotAt_replicate, default_key_none] at hkey
    exact Option.noConfusion hkey
  refine ⟨rfl, h1, ?_, h2, h3, h4, h5, ?_⟩
  · exact h6.trans (Nat.zero_add _)
  · intro k v
    have := h7 k v
    rw [show (adjust_capacity t cap').entries =
      (t.entries.foldl (adjust_step cap') (0, List.replicate cap' default)).2
      from rfl]
    rw [this]
    constructor
    · rintro (h | h)
      · exact absurd h (hnolive k v)
      · exact (liveMem_iff_mem _ _ _).mpr h
    · intro h
      exact Or.inr ((liveMem_iff_mem _ _ _).mp h)

/-- A live entry is not empty. -/
theorem notEmptyB_live (k : LoxString) (v : LoxValue) :
    notEmptyB (⟨some k, v⟩ : LoxEntry) = true := by
  simp [notEmptyB, isEmptySlot]

/-- Structure eta for entries with a known key. -/
theorem slot_eta (e : LoxEntry) (k : LoxString) (hk : e.key = some k) :
    e = ⟨some k, e.value⟩ := by
  obtain ⟨ky, vl⟩ := e
  have hky : ky = some k := hk
  rw [hky]

/-- Inserting a live entry at a slot whose probe prefix for its key has no
empty slot preserves the chain invariant. -/
theorem chainP_set_miss (es : List LoxEntry) (cap : Nat) (key : LoxString)
    (v : LoxValue) (m : Nat) (hmlen : m < es.length)
    (hch : chainP es cap)
    (hmchain : ∀ j, j < probeDist cap (key.hash % cap) m →
      ¬ isEmptySlot (slotAt es (probeIdx cap (key.hash % cap) j))) :
    chainP (es.set m ⟨some key, v⟩) cap := by
  intro i hi k hk j hj hempty
  have hempty' := isEmptySlot_of_set_live es m key v _ hempty
  by_cases him : i = m
  · subst him
    rw [slotAt_set_self _ _ _ hmlen] at hk
    have hkk : key = k := by injection hk
    subst hkk
    exact hmchain j hj hempty'
  · rw [slotAt_set_ne _ _ _ _ (fun h => him h.symm)] at hk
    exact hch i hi k hk j hj hempty'

/-- Inserting a key whose identity occurs nowhere preserves uniqueness. -/
theorem uniqP_set_miss (es : List LoxEntry) (cap : Nat) (key : LoxString)
    (v : LoxValue) (m : Nat) (hmlen : m < es.length)
    (hu : uniqP es cap)
    (habs : ∀ i, i < cap → ∀ k', (slotAt es i).key = some k' →
      k'.id ≠ key.id) :
    uniqP (es.set m ⟨some key, v⟩) cap := by
  intro i j ki kj hi hj hki hkj hid
  by_cases him : i = m
  · by_cases hjm : j = m
    · omega
    · subst him
      rw [slotAt_set_self _ _ _ hmlen] at hki
      have hkk : key = ki := by injection hki
      rw [slotAt_set_ne _ _ _ _ (fun h => hjm h.symm)] at hkj
      have habsj := habs j hj kj hkj
      rw [hkk] at habsj
      exact absurd hid.symm habsj
  · by_cases hjm : j = m
    · subst hjm
      rw [slotAt_set_self _ _ _ hmlen] at hkj
      have hkk : key = kj := by injection hkj
      rw [slotAt_set_ne _ _ _ _ (fun h => him h.symm)] at hki
      have habsi := habs i hi ki hki
      rw [hkk] at habsi
      exact absurd hid habsi
    · rw [slotAt_set_ne _ _ _ _ (fun h => him h.symm)] at hki
      rw [slotAt_set_ne _ _ _ _ (fun h => hjm h.symm)] at hkj
      exact hu i j ki kj hi hj hki hkj hid

/-- Overwriting a slot that already holds the inserted key preserves
uniqueness. -/
theorem uniqP_set_same (es : List LoxEntry) (cap : Nat) (key : LoxString)
    (v : LoxValue) (m : Nat) (hmlen : m < es.length)
    (hu : uniqP es cap)
    (hkm : (slotAt es m).key = some key) :
    uniqP (es.set m ⟨some key, v⟩) cap := by
  have hsame : ∀ a ka, (slotAt (es.set m ⟨some key, v⟩) a).key = some ka →
      (slotAt es a).key = some ka := by
    intro a ka hka
    by_cases ham : a = m
    · subst ham
      rw [slotAt_set_self _ _ _ hmlen] at hka
      rw [hkm]
      exact hka
    · rw [slotAt_set_ne _ _ _ _ (fun h => ham h.symm)] at hka
      exact hka
  intro i j ki kj hi hj hki hkj hid
  exact hu i j ki kj hi hj (hsame i ki hki) (hsame j kj hkj) hid

/-- Inserting a live pair into a key-less slot adds exactly that pair to the
live contents. -/
theorem liveMem_set_keyless (es : List LoxEntry) (key : LoxString)
    (v : LoxValue) (m : Nat) (hmlen : m < es.length)
    (hmkey : (slotAt es m).key = none) :
    ∀ k w, liveMem (es.set m ⟨some key, v⟩) k w ↔
      liveMem es k w ∨ (k = key ∧ w = v) := by
  intro k w
  constructor
  · rintro ⟨i, hi, hs⟩
    by_cases him : i = m
    · subst him
      rw [slotAt_set_self _ _ _ hmlen] at hs
      refine Or.inr ⟨?_, ?_⟩
      · exact (Option.some.inj (congrArg LoxEntry.key hs)).symm
      · exact (congrArg LoxEntry.value hs).symm
    · rw [slotAt_set_ne _ _ _ _ (fun h => him h.symm)] at hs
      exact Or.inl ⟨i, by rw [List.length_set] at hi; exact hi, hs⟩
  · rintro (⟨i, hi, hs⟩ | ⟨rfl, rfl⟩)
    · have him : i ≠ m := by
        intro h
        subst h
        have hkeyi := congrArg LoxEntry.key hs
        rw [hmkey] at hkeyi
        exact Option.noConfusion hkeyi
      exact ⟨i, by rw [List.length_set]; exact hi,
        by rw [slotAt_set_ne _ _ _ _ (fun h => him h.symm)]; exact hs⟩
    · exact ⟨m, by rw [List.length_set]; exact hmlen,
        slotAt_set_self _ _ _ hmlen⟩

/-- Overwriting a slot whose key (if any) has the inserted key's identity
leaves the live contents at every other identity unchanged. -/
theorem liveMem_set_other (es : List LoxEntry) (key : LoxString)
    (v : LoxValue) (m : Nat)
    (hmkey : ∀ k2, (slotAt es m).key = some k2 → k2.id = key.id) :
    ∀ k w, k.id ≠ key.id →
      (liveMem (es.set m ⟨some key, v⟩) k w ↔ liveMem es k w) := by
  intro k w hkid
  constructor
  · rintro ⟨i, hi, hs⟩
    by_cases him : i = m
    · rw [him] at hs
      by_cases hml : m < es.length
      · rw [slotAt_set_self _ _ _ hml] at hs
        have hkk : key = k := Option.some.inj (congrArg LoxEntry.key hs)
        exact absurd (by rw [← hkk]) hkid
      · rw [List.length_set, him] at hi
        omega
    · rw [slotAt_set_ne _ _ _ _ (fun h => him h.symm)] at hs
      exact ⟨i, by rw [List.length_set] at hi; exact hi, hs⟩
  · rintro ⟨i, hi, hs⟩
    have him : i ≠ m := by
      intro h
      rw [h] at hs
      exact hkid (hmkey k (by rw [hs]))
    exact ⟨i, by rw [List.length_set]; exact hi,
      by rw [slotAt_set_ne _ _ _ _ (fun h => him h.symm)]; exact hs⟩

/-- Tombstoning a slot whose key (if any) has the deleted key's identity
leaves the live contents at every other identity unchanged. -/
theorem liveMem_set_tomb (es : List LoxEntry) (m : Nat) (name : LoxString)
    (hms : ∀ k2, (slotAt es m).key = some k2 → k2.id = name.id) :
    ∀ k w, k.id ≠ name.id →
      (liveMem (es.set m ⟨none, .valBool true⟩) k w ↔ liveMem es k w) := by
  intro k w hkid
  constructor
  · rintro ⟨i, hi, hs⟩
    have him : i ≠ m := by
      intro h
      subst h
      by_cases hml : i < es.length
      · rw [slotAt_set_self _ _ _ hml] at hs
        exact Option.noConfusion (congrArg LoxEntry.key hs)
      · rw [List.length_set] at hi
        omega
    rw [slotAt_set_ne _ _ _ _ (fun h => him h.symm)] at hs
    exact ⟨i, by rw [List.length_set] at hi; exact hi, hs⟩
  · rintro ⟨i, hi, hs⟩
    have him : i ≠ m := by
      intro h
      subst h
      exact hkid (hms k (by rw [hs]))
    exact ⟨i, by rw [List.length_set]; exact hi,
      by rw [slotAt_set_ne _ _ _ _ (fun h => him h.symm)]; exact hs⟩

/-- The load-factor phase of `table_set`: after the conditional growth, the
working table is chained, duplicate-free, has an accurate count with a free
slot and post-insertion load headroom, and holds exactly the original live
pairs. -/
theorem table_set_phase1 (t : LoxTable) (hwf : TableWF t) :
    ∀ t1 : LoxTable,
      t1 = (if t.capacity * 3 < (t.count + 1) * 4 then
        adjust_capacity t (grow_capacity t.capacity) else t) →
      t1.entries.length = t1.capacity ∧
      t1.count = t1.entries.countP notEmptyB ∧
      chainP t1.entries t1.capacity ∧
      uniqP t1.entries t1.capacity ∧
      t1.count < t1.capacity ∧
      (t1.count + 1) * 4 ≤ t1.capacity * 3 ∧
      (∀ k v, liveMem t1.entries k v ↔ liveMem t.entries k v) ∧
      8 ≤ t1.capacity := by
  intro t1 ht1
  by_cases hg : t.capacity * 3 < (t.count + 1) * 4
  · rw [if_pos hg] at ht1
    have hlive_le : t.entries.countP isLiveB ≤ t.entries.countP notEmptyB := by
      apply List.countP_mono_left
      intro e he hl
      simp only [notEmptyB, Bool.not_eq_true', decide_eq_false_iff_not]
      intro hemp
      simp only [isLiveB] at hl
      rw [hemp.1] at hl
      simp at hl
    have hlive_len : t.entries.countP isLiveB ≤ t.entries.length :=
      List.countP_le_length _
    have hlen := hwf.len
    have hcnt := hwf.count_eq
    have hload := hwf.load
    have hcaps : (t.capacity = 0 ∧ grow_capacity t.capacity = 8) ∨
        (8 ≤ t.capacity ∧ grow_capacity t.capacity = t.capacity * 2) := by
      rcases hwf.cap_shape with h0 | h8
      · exact Or.inl ⟨h0, by rw [h0]; decide⟩
      · exact Or.inr ⟨h8, by unfold grow_capacity; rw [if_neg (by omega)]⟩
    have hlt : t.entries.countP isLiveB < grow_capacity t.capacity := by
      rcases hcaps with ⟨h0, hc⟩ | ⟨h8, hc⟩ <;> omega
    obtain ⟨a1, a2, a3, a4, a5, a6, a7, a8⟩ :=
      adjust_capacity_spec t (grow_capacity t.capacity) hwf hlt
    subst ht1
    refine ⟨?_, ?_, ?_, ?_, ?_, ?_, a8, ?_⟩
    · rw [a1]; exact a2
    · rw [countP_notEmpty_of_noTomb _ (grow_capacity t.capacity) a2 a5]
      exact a4
    · rw [a1]; exact a6
    · rw [a1]; exact a7
    · rw [a1, a3]; exact hlt
    · rw [a1, a3]
      rcases hcaps with ⟨h0, hc⟩ | ⟨h8, hc⟩ <;> omega
    · rw [a1]
      rcases hcaps with ⟨h0, hc⟩ | ⟨h8, hc⟩ <;> omega
  · rw [if_neg hg] at ht1
    rw [ht1]
    push_neg at hg
    have hcap0 : t.capacity ≠ 0 := by
      intro h0
      rw [h0] at hg
      omega
    have h8 : 8 ≤ t.capacity := by
      rcases hwf.cap_shape with h0 | h8
      · exact absurd h0 hcap0
      · exact h8
    exact ⟨hwf.len, hwf.count_eq, hwf.chain, hwf.uniq, by omega, hg,
      fun k v => Iff.rfl, h8⟩

/-- `table_set` on a key whose identity is absent from the table: the
`isnewkey` result is `true` (even when the chosen slot is a tombstone), the
result is well formed, the key now maps to the value, and no other binding
changes. -/
theorem table_set_absent (t : LoxTable) (key : LoxString) (value : LoxValue)
    (hwf : TableWF t)
    (habs : ∀ i, i < t.capacity → ∀ k', (slotAt t.entries i).key = some k' →
      k'.id ≠ key.id) :
    (table_set t key value).1 = true ∧
    TableWF (table_set t key value).2 ∧
    table_get (table_set t key value).2 key = some value ∧
    (∀ k w, liveMem (table_set t key value).2.entries k w ↔
      liveMem t.entries k w ∨ (k = key ∧ w = value)) := by
  set t1 : LoxTable := (if t.capacity * 3 < (t.count + 1) * 4 then
    adjust_capacity t (grow_capacity t.capacity) else t) with ht1
  obtain ⟨p1, p2, p3, p4, p5, p6, p7, p8⟩ := table_set_phase1 t hwf t1 ht1
  have habs1 : ∀ i, i < t1.capacity → ∀ k',
      (slotAt t1.entries i).key = some k' → k'.id ≠ key.id := by
    intro i hi k' hk' hid
    have hlm : liveMem t1.entries k' (slotAt t1.entries i).value :=
      ⟨i, by rw [p1]; exact hi, slot_eta _ _ hk'⟩
    rw [p7] at hlm
    obtain ⟨j, hj, hsj⟩ := hlm
    exact habs j (by rw [← hwf.len]; exact hj) k' (by rw [hsj]) hid
  have hex : ∃ i, i < t1.capacity ∧ isEmptySlot (slotAt t1.entries i) :=
    exists_empty_slot t1.entries t1.capacity t1.count p1 p2 p5
  have hcap1 : 0 < t1.capacity := by omega
  obtain ⟨m, hfind, hm, hmkey, hmchain⟩ :=
    find_entry_miss t1.entries t1.capacity key hcap1 hex habs1
  have hmlen : m < t1.entries.length := by rw [p1]; omega
  set t2 : LoxTable := ⟨(if is_loxnil (slotAt t1.entries m).value then
      t1.count + 1 else t1.count), t1.capacity,
    t1.entries.set m ⟨some key, value⟩⟩ with ht2
  have hkeyD : (t1.entries.getD m default).key = none := hmkey
  have hts : table_set t key value = (true, t2) := by
    simp only [table_set]
    rw [← ht1, hfind]
    simp only [hkeyD, Option.isNone_none, Bool.true_and]
    rfl
  have hwf2 : TableWF t2 := by
    refine ⟨?_, ?_, ?_, Or.inr p8, ?_, ?_⟩
    · show (t1.entries.set m ⟨some key, value⟩).length = t1.capacity
      rw [List.length_set]; exact p1
    · show (if is_loxnil (slotAt t1.entries m).value then t1.count + 1
        else t1.count) = (t1.entries.set m ⟨some key, value⟩).countP notEmptyB
      rw [List.countP_set _ _ _ _ hmlen, notEmptyB_live]
      by_cases hnil : is_loxnil (slotAt t1.entries m).value = true
      · have hslotm : notEmptyB t1.entries[m] = false := by
          rw [← slotAt_eq_getElem _ _ hmlen]
          simp only [notEmptyB, Bool.not_eq_false', decide_eq_true_eq]
          exact ⟨hmkey, (is_loxnil_iff _).mp hnil⟩
        rw [if_pos hnil, hslotm, p2]
        simp
        try omega
      · have hvm : (slotAt t1.entries m).value ≠ .valNil := by
          intro h
          exact hnil ((is_loxnil_iff _).mpr h)
        have hslotm : notEmptyB t1.entries[m] = true := by
          rw [← slotAt_eq_getElem _ _ hmlen]
          simp only [notEmptyB, Bool.not_eq_true', decide_eq_false_iff_not]
          intro hemp
          exact hvm hemp.2
        have hpos : 0 < t1.entries.countP notEmptyB :=
          List.countP_pos_iff.mpr ⟨_, List.getElem_mem hmlen, hslotm⟩
        rw [if_neg hnil, hslotm, p2]
        simp
        try omega
    · show (if is_loxnil (slotAt t1.entries m).value then t1.count + 1
        else t1.count) * 4 ≤ t1.capacity * 3
      split <;> omega
    · show chainP (t1.entries.set m ⟨some key, value⟩) t1.capacity
      exact chainP_set_miss t1.entries t1.capacity key value m hmlen p3 hmchain
    · show uniqP (t1.entries.set m ⟨some key, value⟩) t1.capacity
      exact uniqP_set_miss t1.entries t1.capacity key value m hmlen p4 habs1
  have hk2 : (slotAt t2.entries m).key = some key := by
    show (slotAt (t1.entries.set m ⟨some key, value⟩) m).key = some key
    rw [slotAt_set_self _ _ _ hmlen]
  have hm2 : m < t2.capacity := hm
  have hget2 : table_get t2 key = some value := by
    have hh := table_get_hit t2 key hwf2 m hm2 hk2
    rw [hh]
    show some (slotAt (t1.entries.set m ⟨some key, value⟩) m).value = some value
    rw [slotAt_set_self _ _ _ hmlen]
  have hmem2 : ∀ k w, liveMem t2.entries k w ↔
      liveMem t.entries k w ∨ (k = key ∧ w = value) := by
    intro k w
    have h1 := liveMem_set_keyless t1.entries key value m hmlen hmkey k w
    constructor
    · intro h
      rcases h1.mp h with h' | h'
      · exact Or.inl ((p7 k w).mp h')
      · exact Or.inr h'
    · rintro (h' | h')
      · exact h1.mpr (Or.inl ((p7 k w).mpr h'))
      · exact h1.mpr (Or.inr h')
  refine ⟨?_, ?_, ?_, ?_⟩
  · rw [hts]
  · rw [hts]; exact hwf2
  · rw [hts]; exact hget2
  · rw [hts]; exact hmem2

/-- `table_set` on a key that is live in the table: the `isnewkey` result is
`false`, the result is well formed, the key's value is replaced, and no
binding of another identity changes. -/
theorem table_set_present (t : LoxTable) (key : LoxString)
    (value oldv : LoxValue) (hwf : TableWF t)
    (hold : liveMem t.entries key oldv) :
    (table_set t key value).1 = false ∧
    TableWF (table_set t key value).2 ∧
    table_get (table_set t key value).2 key = some value ∧
    (∀ k w, k.id ≠ key.id →
      (liveMem (table_set t key value).2.entries k w ↔
        liveMem t.entries k w)) := by
  set t1 : LoxTable := (if t.capacity * 3 < (t.count + 1) * 4 then
    adjust_capacity t (grow_capacity t.capacity) else t) with ht1
  obtain ⟨p1, p2, p3, p4, p5, p6, p7, p8⟩ := table_set_phase1 t hwf t1 ht1
  have hold1 : liveMem t1.entries key oldv := (p7 key oldv).mpr hold
  obtain ⟨m, hmlen, hms⟩ := hold1
  have hm : m < t1.capacity := by rw [← p1]; exact hmlen
  have hkm : (slotAt t1.entries m).key = some key := by rw [hms]
  have hfind := find_entry_hit t1.entries t1.capacity key p3 p4 m hm hkm
  set t2 : LoxTable := ⟨t1.count, t1.capacity,
    t1.entries.set m ⟨some key, value⟩⟩ with ht2
  have hkeyD : (t1.entries.getD m default).key = some key := hkm
  have hts : table_set t key value = (false, t2) := by
    simp only [table_set]
    rw [← ht1, hfind]
    simp only [hkeyD, Option.isNone_some, Bool.false_and, Bool.false_eq_true,
      if_false]
  have hwf2 : TableWF t2 := by
    refine ⟨?_, ?_, ?_, Or.inr p8, ?_, ?_⟩
    · show (t1.entries.set m ⟨some key, value⟩).length = t1.capacity
      rw [List.length_set]; exact p1
    · show t1.count = (t1.entries.set m ⟨some key, value⟩).countP notEmptyB
      rw [List.countP_set _ _ _ _ hmlen, notEmptyB_live]
      have hslotm : notEmptyB t1.entries[m] = true := by
        rw [← slotAt_eq_getElem _ _ hmlen]
        simp only [notEmptyB, Bool.not_eq_true', decide_eq_false_iff_not]
        intro hemp
        have h1 := hemp.1
        rw [hkm] at h1
        exact Option.noConfusion h1
      have hpos : 0 < t1.entries.countP notEmptyB :=
        List.countP_pos_iff.mpr ⟨_, List.getElem_mem hmlen, hslotm⟩
      rw [hslotm, p2]
      simp
      try omega
    · show t1.count * 4 ≤ t1.capacity * 3
      omega
    · show chainP (t1.entries.set m ⟨some key, value⟩) t1.capacity
      exact chainP_set_miss t1.entries t1.capacity key value m hmlen p3
        (p3 m hm key hkm)
    · show uniqP (t1.entries.set m ⟨some key, value⟩) t1.capacity
      exact uniqP_set_same t1.entries t1.capacity key value m hmlen p4 hkm
  have hk2 : (slotAt t2.entries m).key = some key := by
    show (slotAt (t1.entries.set m ⟨some key, value⟩) m).key = some key
    rw [slotAt_set_self _ _ _ hmlen]
  have hm2 : m < t2.capacity := hm
  have hget2 : table_get t2 key = some value := by
    have hh := table_get_hit t2 key hwf2 m hm2 hk2
    rw [hh]
    show some (slotAt (t1.entries.set m ⟨some key, value⟩) m).value = some value
    rw [slotAt_set_self _ _ _ hmlen]
  have hms_id : ∀ k2, (slotAt t1.entries m).key = some k2 →
      k2.id = key.id := by
    intro k2 h
    rw [hkm] at h
    have hkk : key = k2 := Option.some.inj h
    rw [← hkk]
  have hmem2 : ∀ k w, k.id ≠ key.id →
      (liveMem t2.entries k w ↔ liveMem t.entries k w) := by
    intro k w hkid
    have h1 := liveMem_set_other t1.entries key value m hms_id k w hkid
    exact h1.trans (p7 k w)
  refine ⟨?_, ?_, ?_, ?_⟩
  · rw [hts]
  · rw [hts]; exact hwf2
  · rw [hts]; exact hget2
  · rw [hts]; exact hmem2

/-!
## The string interner: content lookup and the interning invariant
-/

/-- `memcmp` reports `0` exactly on equal `n`-prefixes, provided both buffers
hold at least `n` bytes (the C precondition). -/
theorem memcmp_eq_zero_iff :
    ∀ (n : Nat) (a b : List Char), n ≤ a.length → n ≤ b.length →
      (memcmp a b n = 0 ↔ a.take n = b.take n) := by
  intro n
  induction n with
  | zero =>
    intro a b _ _
    simp [memcmp]
  | succ m ih =>
    intro a b ha hb
    cases a with
    | nil => simp at ha
    | cons x a' =>
      cases b with
      | nil => simp at hb
      | cons y b' =>
        simp only [memcmp]
        by_cases hxy : x = y
        · subst hxy
          rw [if_pos rfl, List.take_succ_cons, List.take_succ_cons,
            ih a' b' (by simp only [List.length_cons] at ha; omega)
              (by simp only [List.length_cons] at hb; omega)]
          simp
        · rw [if_neg hxy, List.take_succ_cons, List.take_succ_cons]
          constructor
          · intro h
            by_cases hlt : x.toNat < y.toNat
            · rw [if_pos hlt] at h
              exact absurd h (by decide)
            · rw [if_neg hlt] at h
              exact absurd h (by decide)
          · intro h
            rw [List.cons.injEq] at h
            exact absurd h.1 hxy

/-- The FNV-1a hash reads only the first `length` bytes. -/
theorem hash_string_congr (a b : List Char) (n : Nat)
    (h : a.take n = b.take n) : hash_string a n = hash_string b n := by
  unfold hash_string
  rw [h]

theorem take_take_self (b : List Char) (n : Nat) :
    (b.take n).take n = b.take n := by
  rw [List.take_take, min_self]

/-- Whatever `table_findstring`'s probe loop returns is a live key of the
table matching the searched length, hash and byte content. -/
theorem table_findstring_go_sound (entries : List LoxEntry) (cap : Nat)
    (chars : List Char) (length hash : Nat) :
    ∀ (fuel idx : Nat) (k : LoxString), idx < cap →
      table_findstring_go entries cap chars length hash fuel idx = some k →
      ∃ i, i < cap ∧ (slotAt entries i).key = some k ∧
        k.length = length ∧ k.hash = hash ∧
        memcmp k.buffer chars length = 0 := by
  intro fuel
  induction fuel with
  | zero =>
    intro idx k hidx h
    exact absurd h (by simp [table_findstring_go])
  | succ f ih =>
    intro idx k hidx h
    have hcap : 0 < cap := by omega
    rcases hcase : (entries.getD idx default).key with _ | k'
    · simp only [table_findstring_go, hcase] at h
      by_cases hnil : is_loxnil (entries.getD idx default).value = true
      · rw [if_pos hnil] at h
        exact Option.noConfusion h
      · rw [if_neg hnil] at h
        exact ih _ k (Nat.mod_lt _ hcap) h
    · simp only [table_findstring_go, hcase] at h
      by_cases hmatch : k'.length = length ∧ k'.hash = hash
      · rw [if_pos hmatch] at h
        by_cases hmem : memcmp k'.buffer chars length = 0
        · rw [if_pos hmem] at h
          have hkk : k' = k := Option.some.inj h
          subst hkk
          exact ⟨idx, hidx, hcase, hmatch.1, hmatch.2, hmem⟩
        · rw [if_neg hmem] at h
          exact ih _ k (Nat.mod_lt _ hcap) h
      · rw [if_neg hmatch] at h
        exact ih _ k (Nat.mod_lt _ hcap) h

/-- If a matching live key sits `d` probe steps ahead and no fully empty slot
intervenes, the probe loop returns some matching live key. -/
theorem table_findstring_go_hit (entries : List LoxEntry) (cap : Nat)
    (chars : List Char) (length hash : Nat) :
    ∀ (d fuel idx : Nat), d < fuel → idx < cap →
      (∃ k, (slotAt entries ((idx + d) % cap)).key = some k ∧
        k.length = length ∧ k.hash = hash ∧
        memcmp k.buffer chars length = 0) →
      (∀ j, j < d → ¬ isEmptySlot (slotAt entries ((idx + j) % cap))) →
      ∃ k', table_findstring_go entries cap chars length hash fuel idx
          = some k' ∧
        (∃ i, i < cap ∧ (slotAt entries i).key = some k') ∧
        k'.length = length ∧ k'.hash = hash ∧
        memcmp k'.buffer chars length = 0 := by
  intro d
  induction d with
  | zero =>
    intro fuel idx hfuel hidx htarget _
    cases fuel with
    | zero => omega
    | succ f =>
      have hgoal : (idx + 0) % cap = idx := by
        rw [Nat.add_zero, Nat.mod_eq_of_lt hidx]
      rw [hgoal] at htarget
      obtain ⟨k, hk, hklen, hkhash, hkmem⟩ := htarget
      have hkD : (entries.getD idx default).key = some k := hk
      simp only [table_findstring_go, hkD]
      rw [if_pos ⟨hklen, hkhash⟩, if_pos hkmem]
      exact ⟨k, rfl, ⟨idx, hidx, hk⟩, hklen, hkhash, hkmem⟩
  | succ d ih =>
    intro fuel idx hfuel hidx htarget hpre
    cases fuel with
    | zero => omega
    | succ f =>
      have hcap : 0 < cap := by omega
      have h0 := hpre 0 (Nat.succ_pos d)
      rw [Nat.add_zero, Nat.mod_eq_of_lt hidx] at h0
      have htarget' : ∃ k, (slotAt entries
          (((idx + 1) % cap + d) % cap)).key = some k ∧
          k.length = length ∧ k.hash = hash ∧
          memcmp k.buffer chars length = 0 := by
        rw [probe_mod_shift]
        exact htarget
      have hpre' : ∀ j, j < d →
          ¬ isEmptySlot (slotAt entries (((idx + 1) % cap + j) % cap)) := by
        intro j hj
        rw [probe_mod_shift]
        exact hpre (j + 1) (by omega)
      rcases hcase : (slotAt entries idx).key with _ | k'
      · have hval : (slotAt entries idx).value ≠ .valNil := by
          intro hv
          exact h0 ⟨hcase, hv⟩
        have hnil : is_loxnil (entries.getD idx default).value = false :=
          is_loxnil_eq_false _ hval
        have hcaseD : (entries.getD idx default).key = none := hcase
        simp only [table_findstring_go, hcaseD]
        rw [hnil]
        simp only [Bool.false_eq_true, if_false]
        exact ih f ((idx + 1) % cap) (by omega) (Nat.mod_lt _ hcap)
          htarget' hpre'
      · have hcaseD : (entries.getD idx default).key = some k' := hcase
        simp only [table_findstring_go, hcaseD]
        by_cases hmatch : k'.length = length ∧ k'.hash = hash
        · rw [if_pos hmatch]
          by_cases hmem : memcmp k'.buffer chars length = 0
          · rw [if_pos hmem]
            exact ⟨k', rfl, ⟨idx, hidx, hcase⟩, hmatch.1, hmatch.2, hmem⟩
          · rw [if_neg hmem]
            exact ih f ((idx + 1) % cap) (by omega) (Nat.mod_lt _ hcap)
              htarget' hpre'
        · rw [if_neg hmatch]
          exact ih f ((idx + 1) % cap) (by omega) (Nat.mod_lt _ hcap)
            htarget' hpre'

/-- `table_findstring` soundness: a returned string is a live key matching
the searched content. -/
theorem table_findstring_sound (t : LoxTable) (chars : List Char)
    (length hash : Nat) (k : LoxString)
    (h : table_findstring t chars length hash = some k) :
    ∃ i, i < t.capacity ∧ (slotAt t.entries i).key = some k ∧
      k.length = length ∧ k.hash = hash ∧
      memcmp k.buffer chars length = 0 := by
  unfold table_findstring at h
  by_cases h0 : t.count = 0
  · rw [if_pos h0] at h
    exact Option.noConfusion h
  · rw [if_neg h0] at h
    rcases Nat.eq_zero_or_pos t.capacity with hc | hc
    · rw [hc] at h
      exact absurd h (by simp [table_findstring_go])
    · exact table_findstring_go_sound t.entries t.capacity chars length hash
        t.capacity (hash % t.capacity) k (Nat.mod_lt _ hc) h

/-- `table_findstring` completeness: when some live key matches the searched
content (and carries the searched hash), the lookup succeeds and returns a
matching live key. -/
theorem table_findstring_hit (t : LoxTable) (hwf : TableWF t)
    (chars : List Char) (length hash : Nat) (i : Nat) (hi : i < t.capacity)
    (k : LoxString) (hk : (slotAt t.entries i).key = some k)
    (hkh : k.hash = hash) (hklen : k.length = length)
    (hkmem : memcmp k.buffer chars length = 0) :
    ∃ k', table_findstring t chars length hash = some k' ∧
      (∃ j, j < t.capacity ∧ (slotAt t.entries j).key = some k') ∧
      k'.length = length ∧ k'.hash = hash ∧
      memcmp k'.buffer chars length = 0 := by
  have hcount : t.count ≠ 0 := count_pos_of_live t hwf i hi k hk
  have hcap : 0 < t.capacity := by omega
  have hh : hash % t.capacity < t.capacity := Nat.mod_lt _ hcap
  have hd : probeDist t.capacity (hash % t.capacity) i < t.capacity :=
    probeDist_lt _ _ _ hcap
  have htargetIdx : (hash % t.capacity +
      probeDist t.capacity (hash % t.capacity) i) % t.capacity = i :=
    probeIdx_probeDist t.capacity (hash % t.capacity) i hh hi
  have htarget : ∃ k0, (slotAt t.entries ((hash % t.capacity +
      probeDist t.capacity (hash % t.capacity) i) % t.capacity)).key
        = some k0 ∧ k0.length = length ∧ k0.hash = hash ∧
      memcmp k0.buffer chars length = 0 := by
    rw [htargetIdx]
    exact ⟨k, hk, hklen, hkh, hkmem⟩
  have hpre : ∀ j, j < probeDist t.capacity (hash % t.capacity) i →
      ¬ isEmptySlot (slotAt t.entries
        ((hash % t.capacity + j) % t.capacity)) := by
    intro j hj
    have := hwf.chain i hi k hk j (by rw [hkh]; exact hj)
    rw [hkh] at this
    exact this
  unfold table_findstring
  rw [if_neg hcount]
  exact table_findstring_go_hit t.entries t.capacity chars length hash
    (probeDist t.capacity (hash % t.capacity) i) t.capacity
    (hash % t.capacity) hd hh htarget hpre

/-- The freshly initialised VM satisfies the interning invariant. -/
theorem internWF_init : InternWF initInternState := by
  have hno : ∀ k v, ¬ liveMem initInternState.strings.entries k v := by
    rintro k v ⟨i, hi, _⟩
    simp [initInternState, init_table] at hi
  refine ⟨tableWF_init, ?_, ?_, ?_, ?_⟩
  · intro k v hlm
    exact absurd hlm (hno k v)
  · intro k v hlm
    exact absurd hlm (hno k v)
  · intro k v hlm
    exact absurd hlm (hno k v)
  · intro k1 v1 k2 v2 h1
    exact absurd h1 (hno k1 v1)

/-- `allocate_string` on content absent from the interner: the new string is
numbered `nextId`, interned with value `nil`, the invariant is preserved,
and nothing is freed. -/
theorem allocate_string_spec (st : InternState) (b : List Char) (n h : Nat)
    (hwf : InternWF st) (hh : h = hash_string b n) (hnb : n ≤ b.length)
    (habs : ∀ k v, liveMem st.strings.entries k v →
      ¬ (k.length = n ∧ k.buffer.take k.length = b.take n)) :
    InternWF (allocate_string st b n h).2 ∧
    (allocate_string st b n h).1 = ⟨st.nextId, n, b, h⟩ ∧
    liveMem (allocate_string st b n h).2.strings.entries
      (allocate_string st b n h).1 .valNil ∧
    (allocate_string st b n h).2.freed = st.freed := by
  have hid : ∀ i, i < st.strings.capacity → ∀ k',
      (slotAt st.strings.entries i).key = some k' →
      k'.id ≠ (⟨st.nextId, n, b, h⟩ : LoxString).id := by
    intro i hi k' hk'
    have hlm : liveMem st.strings.entries k'
        (slotAt st.strings.entries i).value :=
      ⟨i, by rw [hwf.wf.len]; exact hi, slot_eta _ _ hk'⟩
    have hlt := hwf.keys_id k' _ hlm
    intro heq
    have heq' : k'.id = st.nextId := heq
    omega
  have hset := table_set_absent st.strings ⟨st.nextId, n, b, h⟩ .valNil
    hwf.wf hid
  have halloc : allocate_string st b n h =
      (⟨st.nextId, n, b, h⟩,
       ⟨(table_set st.strings ⟨st.nextId, n, b, h⟩ .valNil).2,
        ⟨st.nextId, n, b, h⟩ :: st.objects, st.nextId + 1, st.freed⟩) := rfl
  rw [halloc]
  have hmem := hset.2.2.2
  refine ⟨?_, rfl, ?_, rfl⟩
  · refine ⟨hset.2.1, ?_, ?_, ?_, ?_⟩
    · intro k v hlm
      rcases (hmem k v).mp hlm with hold | ⟨rfl, rfl⟩
      · exact hwf.keys_hash k v hold
      · exact hh
    · intro k v hlm
      rcases (hmem k v).mp hlm with hold | ⟨rfl, rfl⟩
      · have := hwf.keys_id k v hold
        show k.id < st.nextId + 1
        omega
      · show st.nextId < st.nextId + 1
        omega
    · intro k v hlm
      rcases (hmem k v).mp hlm with hold | ⟨rfl, rfl⟩
      · exact hwf.keys_len k v hold
      · exact hnb
    · intro k1 v1 k2 v2 h1 h2 hlen heq
      rcases (hmem k1 v1).mp h1 with hold1 | ⟨rfl, rfl⟩ <;>
        rcases (hmem k2 v2).mp h2 with hold2 | ⟨rfl, rfl⟩
      · exact hwf.keys_uniq k1 v1 k2 v2 hold1 hold2 hlen heq
      · exact absurd ⟨hlen, heq⟩ (habs k1 v1 hold1)
      · exact absurd ⟨hlen.symm, heq.symm⟩ (habs k2 v2 hold2)
      · rfl
  · exact (hset.2.2.2 _ _).mpr (Or.inr ⟨rfl, rfl⟩)

/-- When no live key matches the searched content, `table_findstring`
misses. -/
theorem intern_findstring_miss (st : InternState) (hwf : InternWF st)
    (b : List Char) (n : Nat) (hnb : n ≤ b.length)
    (habs : ∀ k v, liveMem st.strings.entries k v →
      ¬ (k.length = n ∧ k.buffer.take k.length = b.take n)) :
    table_findstring st.strings b n (hash_string b n) = none := by
  cases hfs : table_findstring st.strings b n (hash_string b n) with
  | none => rfl
  | some k =>
    obtain ⟨i, hi, hk, hklen, hkh, hkmem⟩ :=
      table_findstring_sound st.strings b n (hash_string b n) k hfs
    have hlm : liveMem st.strings.entries k
        (slotAt st.strings.entries i).value :=
      ⟨i, by rw [hwf.wf.len]; exact hi, slot_eta _ _ hk⟩
    have hlen_le : k.length ≤ k.buffer.length := hwf.keys_len k _ hlm
    have htake : k.buffer.take n = b.take n :=
      (memcmp_eq_zero_iff n k.buffer b (by omega) hnb).mp hkmem
    exact absurd ⟨hklen, by rw [hklen]; exact htake⟩ (habs k _ hlm)

/-- `copy_string` and `take_string` on content that is already interned as
the live string `s`: both return `s` itself; `copy_string` leaves the state
unchanged and `take_string` frees the redundant caller buffer. -/
theorem intern_op_hit (st : InternState) (hwf : InternWF st) (b : List Char)
    (n : Nat) (hnb : n ≤ b.length) (s : LoxString) (v : LoxValue)
    (hs : liveMem st.strings.entries s v)
    (hslen : s.length = n) (hsbuf : s.buffer.take n = b.take n) :
    copy_string st b n = (s, st) ∧
    take_string st b n = (s, { st with freed := b :: st.freed }) := by
  obtain ⟨i, hilen, hslot⟩ := hs
  have hi : i < st.strings.capacity := by rw [← hwf.wf.len]; exact hilen
  have hk : (slotAt st.strings.entries i).key = some s := by rw [hslot]
  have hs_len_le : s.length ≤ s.buffer.length :=
    hwf.keys_len s v ⟨i, hilen, hslot⟩
  have hmem0 : memcmp s.buffer b n = 0 :=
    (memcmp_eq_zero_iff n s.buffer b (by omega) hnb).mpr hsbuf
  have hhash : s.hash = hash_string b n := by
    have h1 := hwf.keys_hash s v ⟨i, hilen, hslot⟩
    rw [h1, hslen]
    exact hash_string_congr s.buffer b n hsbuf
  obtain ⟨k', hfind, ⟨j, hj, hkj⟩, hklen, hkh, hkmem⟩ :=
    table_findstring_hit st.strings hwf.wf b n (hash_string b n) i hi s hk
      hhash hslen hmem0
  have hk'_len_le : k'.length ≤ k'.buffer.length :=
    hwf.keys_len k' _ ⟨j, by rw [hwf.wf.len]; exact hj, slot_eta _ _ hkj⟩
  have hk'take : k'.buffer.take n = b.take n :=
    (memcmp_eq_zero_iff n k'.buffer b (by omega) hnb).mp hkmem
  have hks : k' = s := by
    apply hwf.keys_uniq k' _ s _ ⟨j, by rw [hwf.wf.len]; exact hj,
      slot_eta _ _ hkj⟩ ⟨i, hilen, hslot⟩ (hklen.trans hslen.symm)
    rw [hklen, hslen, hk'take, hsbuf]
  rw [hks] at hfind
  constructor
  · simp only [copy_string, hfind]
  · simp only [take_string, hfind]

/-- Running either interning entry point on a valid state: the invariant is
preserved and the returned string is live with the requested content. -/
theorem intern_op_spec (st : InternState) (hwf : InternWF st) (b : List Char)
    (n : Nat) (hnb : n ≤ b.length) (r : LoxString × InternState)
    (hr : r = copy_string st b n ∨ r = take_string st b n) :
    InternWF r.2 ∧
    (∃ v, liveMem r.2.strings.entries r.1 v) ∧
    r.1.length = n ∧ r.1.buffer.take n = b.take n := by
  by_cases hdup : ∃ s v, liveMem st.strings.entries s v ∧ s.length = n ∧
      s.buffer.take n = b.take n
  · obtain ⟨s, v, hs, hslen, hsbuf⟩ := hdup
    obtain ⟨hc, ht⟩ := intern_op_hit st hwf b n hnb s v hs hslen hsbuf
    rcases hr with rfl | rfl
    · rw [hc]
      exact ⟨hwf, ⟨v, hs⟩, hslen, hsbuf⟩
    · rw [ht]
      exact ⟨⟨hwf.wf, hwf.keys_hash, hwf.keys_id, hwf.keys_len,
        hwf.keys_uniq⟩, ⟨v, hs⟩, hslen, hsbuf⟩
  · push_neg at hdup
    have habs : ∀ k v, liveMem st.strings.entries k v →
        ¬ (k.length = n ∧ k.buffer.take k.length = b.take n) := by
      rintro k v hlm ⟨hl, hb'⟩
      rw [hl] at hb'
      exact hdup k v hlm hl hb'
    have hmiss := intern_findstring_miss st hwf b n hnb habs
    rcases hr with rfl | rfl
    · have hcopy : copy_string st b n =
          allocate_string st (b.take n) n (hash_string b n) := by
        simp only [copy_string, hmiss]
      rw [hcopy]
      have hh' : hash_string b n = hash_string (b.take n) n :=
        hash_string_congr b (b.take n) n (take_take_self b n).symm
      have habs' : ∀ k v, liveMem st.strings.entries k v →
          ¬ (k.length = n ∧ k.buffer.take k.length = (b.take n).take n) := by
        rintro k v hlm ⟨hl, hb'⟩
        rw [take_take_self] at hb'
        exact habs k v hlm ⟨hl, hb'⟩
      obtain ⟨w1, w2, w3, w4⟩ := allocate_string_spec st (b.take n) n
        (hash_string b n) hwf hh' (by rw [List.length_take]; omega) habs'
      refine ⟨w1, ⟨.valNil, w3⟩, ?_, ?_⟩
      · rw [w2]
      · rw [w2]
        show (b.take n).take n = b.take n
        exact take_take_self b n
    · have htake : take_string st b n =
          allocate_string st b n (hash_string b n) := by
        simp only [take_string, hmiss]
      rw [htake]
      obtain ⟨w1, w2, w3, w4⟩ := allocate_string_spec st b n
        (hash_string b n) hwf rfl hnb habs
      refine ⟨w1, ⟨.valNil, w3⟩, ?_, ?_⟩
      · rw [w2]
      · rw [w2]

/-!
## Theorems about the claims
-/

/-- On a stack of shape `rest ++ [b, a]` (so `a` on top), `peek_vm` sees `a`
at distance 0 and `b` at distance 1. -/
theorem peek_vm_two (vm : LoxVM) (rest : List LoxValue) (b a : LoxValue)
    (h : vm.stack = rest ++ [b, a]) :
    peek_vm vm 0 = a ∧ peek_vm vm 1 = b := by
  constructor
  · show vm.stack.getD (vm.stack.length - 1 - 0) default = a
    rw [h]
    have hi : (rest ++ [b, a]).length - 1 - 0 = rest.length + 1 := by simp
    rw [hi, List.getD_append_right _ _ _ _ (by omega)]
    have hi2 : rest.length + 1 - rest.length = 1 := by omega
    rw [hi2]
    rfl
  · show vm.stack.getD (vm.stack.length - 1 - 1) default = b
    rw [h]
    have hi : (rest ++ [b, a]).length - 1 - 1 = rest.length := by simp
    rw [hi, List.getD_append_right _ _ _ _ (by omega)]
    have hi2 : rest.length - rest.length = 0 := by omega
    rw [hi2]
    rfl

/-- Popping twice from a stack of shape `rest ++ [b, a]` yields `a` then `b`
and leaves `rest`. -/
theorem pop_vm_two (vm : LoxVM) (rest : List LoxValue) (b a : LoxValue)
    (h : vm.stack = rest ++ [b, a]) :
    (pop_vm vm).1 = a ∧ (pop_vm (pop_vm vm).2).1 = b ∧
    (pop_vm (pop_vm vm).2).2.stack = rest := by
  have hba : vm.stack = (rest ++ [b]) ++ [a] := by rw [h]; simp
  have h1 : (pop_vm vm).1 = a := by
    show vm.stack.getLastD default = a
    rw [hba, List.getLastD_concat]
  have h2s : (pop_vm vm).2.stack = rest ++ [b] := by
    show vm.stack.dropLast = rest ++ [b]
    rw [hba, List.dropLast_concat]
  have h2 : (pop_vm (pop_vm vm).2).1 = b := by
    show (pop_vm vm).2.stack.getLastD default = b
    rw [h2s, List.getLastD_concat]
  have h3 : (pop_vm (pop_vm vm).2).2.stack = rest := by
    show (pop_vm vm).2.stack.dropLast = rest
    rw [h2s, List.dropLast_concat]
  exact ⟨h1, h2, h3⟩

/-- **C1** (code bug).  `values_equal` on two references to the same interned
string `"a"` (the operands `OP_EQUAL` sees after evaluating `"a" == "a"`)
returns `false`, because the `VAL_OBJECT` branch of `value.c:values_equal`
returns the raw `memcmp` result (`0` = equal) converted to `bool`; executing
`OP_EQUAL` on that state therefore pushes `false` where the claim (and the
spec's scenario `print "a" == "a";` → `true`) requires `true`.  Moreover two
same-length strings of *different* contents compare `true`. -/
theorem c1_values_equal_memcmp_bug :
    values_equal (.valObject strA) (.valObject strA) = false ∧
    step vmEqualAA =
      .next ⟨⟨[OP_EQUAL], [1], []⟩, 1, [.valBool false],
        initInternState, init_table, []⟩ ∧
    values_equal (.valObject strA) (.valObject strX) = true := by
  refine ⟨rfl, ?_, rfl⟩
  rfl

/-- **C2** (code bug).  Scanning the five-character source `print` yields a
token of category `TOKEN_OR`, not `TOKEN_PRINT`: the `'p'` case of
`scanner.c:identifier_type` returns `TOKEN_OR` for the matched keyword, so
`compiler.c:statement` (which tests `match(TOKEN_PRINT)`) never recognises a
`print` statement. -/
theorem c2_print_scans_as_token_or :
    (scanner_scan_token (scanner_init ['p', 'r', 'i', 'n', 't'])).1.type =
      .TOKEN_OR ∧
    LoxTokenType.TOKEN_OR ≠ LoxTokenType.TOKEN_PRINT := by
  exact ⟨rfl, by decide⟩

/-- **C6** (code bug).  `push_vm` appends unconditionally: the stack after a
push is always the old stack with the value appended and the height always
grows by one, with no comparison against `STACK_MAX` anywhere — in
particular a push at height 256 still writes a 257th slot, where the C
code writes past the end of `vm.stack[STACK_MAX]`.  The claimed invariant
`stack-top ≤ STACK_MAX` is therefore not enforced by the VM. -/
theorem c6_push_vm_has_no_bound_check :
    (∀ (vm : LoxVM) (value : LoxValue),
      (push_vm vm value).stack = vm.stack ++ [value] ∧
      (push_vm vm value).stack.length = vm.stack.length + 1) ∧
    (push_vm ⟨init_chunk, 0, List.replicate STACK_MAX .valNil,
        initInternState, init_table, []⟩ .valNil).stack.length
      = STACK_MAX + 1 := by
  refine ⟨fun vm value => ⟨rfl, by simp [push_vm]⟩, ?_⟩
  simp [push_vm, List.length_append, List.length_replicate]

/-- **C7** (counterexample).  Executing `OP_ADD` on the operands `1` and
`"x"` raises a runtime error whose message is
`"Operands must be 2 numbers or 2 strings."` — the digit `2`, not the word
`two` — so the claimed message text `"Operands must be two numbers or two
strings."` is not the one the code produces. -/
theorem c7_add_error_message_counterexample :
    step vmAddMixed =
      .rtError "Operands must be 2 numbers or 2 strings." 1
        ⟨⟨[OP_ADD], [1], []⟩, 1, [], initInternState, init_table, []⟩ ∧
    "Operands must be 2 numbers or 2 strings." ≠
      "Operands must be two numbers or two strings." := by
  exact ⟨rfl, by decide⟩

/-- **C7** (amended).  Executing `OP_ADD` when the two operands (`b` below
`a` on top) are neither both numbers nor both strings raises a runtime error
with the message `"Operands must be 2 numbers or 2 strings."`, resets the
stack, and the dispatch loop halts with the Runtime-Error result. -/
theorem c7_add_mixed_operands_error (vm : LoxVM) (rest : List LoxValue)
    (b a : LoxValue) (hstack : vm.stack = rest ++ [b, a])
    (hop : vm.chunk.code.getD vm.ip 0 = OP_ADD)
    (hstr : (is_loxstring a && is_loxstring b) = false)
    (hnum : (is_loxnumber a && is_loxnumber b) = false) :
    step vm = .rtError "Operands must be 2 numbers or 2 strings."
        (vm.chunk.lines.getD vm.ip 0) { vm with ip := vm.ip + 1, stack := [] }
      ∧
    ∀ fuel, run_vm (fuel + 1) vm =
      .rtErr "Operands must be 2 numbers or 2 strings."
        (vm.chunk.lines.getD vm.ip 0)
        { vm with ip := vm.ip + 1, stack := [] } := by
  have hpeek := peek_vm_two vm rest b a hstack
  have hpeek' := peek_vm_two { vm with ip := vm.ip + 1 } rest b a hstack
  have hstep : step vm = .rtError "Operands must be 2 numbers or 2 strings."
      (vm.chunk.lines.getD vm.ip 0)
      { vm with ip := vm.ip + 1, stack := [] } := by
    simp only [step, read_byte, hop]
    norm_num [OP_ADD, OP_CONSTANT, OP_DEFINE_GLOBAL, OP_GET_GLOBAL,
      OP_SET_GLOBAL, OP_GET_LOCAL, OP_SET_LOCAL, OP_POP, OP_NIL, OP_TRUE,
      OP_FALSE, OP_EQUAL, OP_GREATER, OP_LESS, -List.getD_eq_getElem?_getD]
    rw [show ({ vm with ip := vm.ip + 1 } : LoxVM).stack = vm.stack from rfl]
      at hpeek'
    rw [if_neg, if_neg]
    · simp [runtime_error_vm]
    · rw [hpeek'.1, hpeek'.2]
      rintro ⟨ha, hb⟩
      simp [ha, hb] at hnum
    · rw [hpeek'.1, hpeek'.2]
      rintro ⟨ha, hb⟩
      simp [ha, hb] at hstr
  refine ⟨hstep, fun fuel => ?_⟩
  simp [run_vm, hstep]

/-- Witness for `c7_add_mixed_operands_error` at the concrete `1 + "x"`
state. -/
theorem c7_add_mixed_operands_error_witness :
    step vmAddMixed = .rtError "Operands must be 2 numbers or 2 strings."
      (vmAddMixed.chunk.lines.getD vmAddMixed.ip 0)
      { vmAddMixed with ip := vmAddMixed.ip + 1, stack := [] } :=
  (c7_add_mixed_operands_error vmAddMixed []
    (.valNumber (.finite 1)) (.valObject strX) rfl rfl rfl rfl).1

/-- **C9**.  `table_get` and `table_delete` on a table whose `count` is `0`
report the key absent and leave the table unchanged, whatever the `entries`
field holds — in particular for the freshly initialised table whose
`entries` is `NULL` (the empty list); the result does not depend on
`entries` at all, matching the early return before any array access. -/
theorem c9_zero_count_get_delete (t : LoxTable) (key : LoxString)
    (h : t.count = 0) :
    table_get t key = none ∧
    table_delete t key = (false, t) ∧
    (∀ (capacity : Nat) (entries : List LoxEntry),
      table_get ⟨0, capacity, entries⟩ key = none ∧
      table_delete ⟨0, capacity, entries⟩ key =
        (false, ⟨0, capacity, entries⟩)) := by
  refine ⟨by simp [table_get, h], by simp [table_delete, h],
    fun capacity entries => ⟨rfl, rfl⟩⟩

/-- Witness for `c9_zero_count_get_delete` at the freshly initialised
table. -/
theorem c9_zero_count_get_delete_witness :
    table_get init_table strA = none ∧
    table_delete init_table strA = (false, init_table) :=
  ⟨(c9_zero_count_get_delete init_table strA rfl).1,
   (c9_zero_count_get_delete init_table strA rfl).2.1⟩

/-- `make_binary_op` on two number operands `lhs` (below) and `rhs` (top)
raises no error and pushes `mk lhs rhs`. -/
theorem make_binary_op_numbers (chunk : LoxChunk) (ip : Nat)
    (stack : List LoxValue) (intern : InternState) (globals : LoxTable)
    (output : List String) (rest : List LoxValue) (lhs rhs : Double)
    (mk : Double → Double → LoxValue)
    (h : stack = rest ++ [.valNumber lhs, .valNumber rhs]) :
    make_binary_op ⟨chunk, ip, stack, intern, globals, output⟩ mk =
      .next ⟨chunk, ip, rest ++ [mk lhs rhs], intern, globals, output⟩ := by
  set vm : LoxVM := ⟨chunk, ip, stack, intern, globals, output⟩ with hvm
  have hstack : vm.stack = rest ++ [.valNumber lhs, .valNumber rhs] := h
  have hp := peek_vm_two vm rest _ _ hstack
  have hq := pop_vm_two vm rest _ _ hstack
  have hpush : push_vm (pop_vm (pop_vm vm).2).2 (mk lhs rhs) =
      ⟨chunk, ip, rest ++ [mk lhs rhs], intern, globals, output⟩ := by
    show (⟨chunk, ip, (pop_vm (pop_vm vm).2).2.stack ++ [mk lhs rhs],
      intern, globals, output⟩ : LoxVM) = _
    rw [hq.2.2]
  calc make_binary_op vm mk
      = .next (push_vm (pop_vm (pop_vm vm).2).2
          (mk (as_loxnumber (pop_vm (pop_vm vm).2).1)
              (as_loxnumber (pop_vm vm).1))) := by
        simp only [make_binary_op, hp.1, hp.2]
        norm_num [is_loxnumber]
    _ = .next ⟨chunk, ip, rest ++ [mk lhs rhs], intern, globals, output⟩ := by
        rw [hq.1, hq.2.1]
        rw [show as_loxnumber (.valNumber lhs) = lhs from rfl,
          show as_loxnumber (.valNumber rhs) = rhs from rfl, hpush]

/-- `make_binary_op` when at least one operand is not a number raises the
runtime error `"Operands must be numbers."`. -/
theorem make_binary_op_mixed (vm : LoxVM) (rest : List LoxValue)
    (b a : LoxValue) (mk : Double → Double → LoxValue)
    (h : vm.stack = rest ++ [b, a])
    (hnum : (is_loxnumber a && is_loxnumber b) = false) :
    make_binary_op vm mk = .rtError "Operands must be numbers."
      (vm.chunk.lines.getD (vm.ip - 1) 0) { vm with stack := [] } := by
  have hp := peek_vm_two vm rest b a h
  simp only [make_binary_op, hp.1, hp.2, runtime_error_vm]
  rcases Bool.and_eq_false_iff.mp hnum with ha | hb
  · simp [ha]
  · simp [hb]

/-- `step` on an `OP_SUB` byte defers to `make_binary_op` with subtraction. -/
theorem step_sub_dispatch (vm : LoxVM)
    (h : vm.chunk.code.getD vm.ip 0 = OP_SUB) :
    step vm = make_binary_op { vm with ip := vm.ip + 1 }
      (fun lhs rhs => .valNumber (Double.sub lhs rhs)) := by
  simp only [step, read_byte, h]
  norm_num [OP_CONSTANT, OP_DEFINE_GLOBAL, OP_GET_GLOBAL, OP_SET_GLOBAL,
    OP_GET_LOCAL, OP_SET_LOCAL, OP_POP, OP_NIL, OP_TRUE, OP_FALSE, OP_EQUAL,
    OP_GREATER, OP_LESS, OP_ADD, OP_SUB]

/-- `step` on an `OP_MUL` byte defers to `make_binary_op` with
multiplication. -/
theorem step_mul_dispatch (vm : LoxVM)
    (h : vm.chunk.code.getD vm.ip 0 = OP_MUL) :
    step vm = make_binary_op { vm with ip := vm.ip + 1 }
      (fun lhs rhs => .valNumber (Double.mul lhs rhs)) := by
  simp only [step, read_byte, h]
  norm_num [OP_CONSTANT, OP_DEFINE_GLOBAL, OP_GET_GLOBAL, OP_SET_GLOBAL,
    OP_GET_LOCAL, OP_SET_LOCAL, OP_POP, OP_NIL, OP_TRUE, OP_FALSE, OP_EQUAL,
    OP_GREATER, OP_LESS, OP_ADD, OP_SUB, OP_MUL]

/-- `step` on an `OP_DIV` byte defers to `make_binary_op` with division. -/
theorem step_div_dispatch (vm : LoxVM)
    (h : vm.chunk.code.getD vm.ip 0 = OP_DIV) :
    step vm = make_binary_op { vm with ip := vm.ip + 1 }
      (fun lhs rhs => .valNumber (Double.div lhs rhs)) := by
  simp only [step, read_byte, h]
  norm_num [OP_CONSTANT, OP_DEFINE_GLOBAL, OP_GET_GLOBAL, OP_SET_GLOBAL,
    OP_GET_LOCAL, OP_SET_LOCAL, OP_POP, OP_NIL, OP_TRUE, OP_FALSE, OP_EQUAL,
    OP_GREATER, OP_LESS, OP_ADD, OP_SUB, OP_MUL, OP_DIV]

/-- **C10**.  `OP_DIV` (and `OP_SUB`, `OP_MUL`) on two number operands never
raises a runtime error and pushes the result of the IEEE operation — in
particular division by a zero divisor succeeds, yielding NaN (for `0/0`) or
a signed infinity (for `q/0`, `q ≠ 0`) rather than an error; the runtime
error `"Operands must be numbers."` is raised exactly when at least one
operand is a non-number. -/
theorem c10_div_ieee_never_errors_on_numbers :
    (∀ (chunk : LoxChunk) (ip : Nat) (stack : List LoxValue)
       (intern : InternState) (globals : LoxTable) (output : List String)
       (rest : List LoxValue) (lhs rhs : Double),
      stack = rest ++ [.valNumber lhs, .valNumber rhs] →
      chunk.code.getD ip 0 = OP_DIV →
      step ⟨chunk, ip, stack, intern, globals, output⟩ =
        .next ⟨chunk, ip + 1, rest ++ [.valNumber (Double.div lhs rhs)],
          intern, globals, output⟩) ∧
    (∀ (chunk : LoxChunk) (ip : Nat) (stack : List LoxValue)
       (intern : InternState) (globals : LoxTable) (output : List String)
       (rest : List LoxValue) (lhs rhs : Double),
      stack = rest ++ [.valNumber lhs, .valNumber rhs] →
      chunk.code.getD ip 0 = OP_SUB →
      step ⟨chunk, ip, stack, intern, globals, output⟩ =
        .next ⟨chunk, ip + 1, rest ++ [.valNumber (Double.sub lhs rhs)],
          intern, globals, output⟩) ∧
    (∀ (chunk : LoxChunk) (ip : Nat) (stack : List LoxValue)
       (intern : InternState) (globals : LoxTable) (output : List String)
       (rest : List LoxValue) (lhs rhs : Double),
      stack = rest ++ [.valNumber lhs, .valNumber rhs] →
      chunk.code.getD ip 0 = OP_MUL →
      step ⟨chunk, ip, stack, intern, globals, output⟩ =
        .next ⟨chunk, ip + 1, rest ++ [.valNumber (Double.mul lhs rhs)],
          intern, globals, output⟩) ∧
    (∀ (vm : LoxVM) (rest : List LoxValue) (b a : LoxValue),
      vm.stack = rest ++ [b, a] →
      (is_loxnumber a && is_loxnumber b) = false →
      vm.chunk.code.getD vm.ip 0 = OP_DIV ∨
        vm.chunk.code.getD vm.ip 0 = OP_SUB ∨
        vm.chunk.code.getD vm.ip 0 = OP_MUL →
      step vm = .rtError "Operands must be numbers."
        (vm.chunk.lines.getD vm.ip 0)
        { vm with ip := vm.ip + 1, stack := [] }) ∧
    (∀ q : ℚ, Double.div (.finite q) (.finite 0) =
      if q = 0 then .nan else if q < 0 then .negInf else .posInf) := by
  have herr : ∀ (vm : LoxVM) (rest : List LoxValue) (b a : LoxValue)
      (mk : Double → Double → LoxValue), vm.stack = rest ++ [b, a] →
      (is_loxnumber a && is_loxnumber b) = false →
      make_binary_op { vm with ip := vm.ip + 1 } mk =
        .rtError "Operands must be numbers." (vm.chunk.lines.getD vm.ip 0)
          { vm with ip := vm.ip + 1, stack := [] } := by
    intro vm rest b a mk h hnum
    have := make_binary_op_mixed { vm with ip := vm.ip + 1 } rest b a mk h hnum
    simpa using this
  refine ⟨?_, ?_, ?_, ?_, ?_⟩
  · intro chunk ip stack intern globals output rest lhs rhs hstack hop
    rw [step_div_dispatch _ hop]
    exact make_binary_op_numbers chunk (ip + 1) stack intern globals output
      rest lhs rhs _ hstack
  · intro chunk ip stack intern globals output rest lhs rhs hstack hop
    rw [step_sub_dispatch _ hop]
    exact make_binary_op_numbers chunk (ip + 1) stack intern globals output
      rest lhs rhs _ hstack
  · intro chunk ip stack intern globals output rest lhs rhs hstack hop
    rw [step_mul_dispatch _ hop]
    exact make_binary_op_numbers chunk (ip + 1) stack intern globals output
      rest lhs rhs _ hstack
  · intro vm rest b a hstack hnum hop
    rcases hop with hop | hop | hop
    · rw [step_div_dispatch _ hop]; exact herr vm rest b a _ hstack hnum
    · rw [step_sub_dispatch _ hop]; exact herr vm rest b a _ hstack hnum
    · rw [step_mul_dispatch _ hop]; exact herr vm rest b a _ hstack hnum
  · intro q
    by_cases h0 : q = 0
    · simp [Double.div, h0]
    · by_cases hneg : q < 0 <;> simp [Double.div, h0, hneg]

/-- Witness for `c10_div_ieee_never_errors_on_numbers`: dividing `1` by `0`
pushes positive infinity and raises no error. -/
theorem c10_div_ieee_never_errors_on_numbers_witness :
    step ⟨⟨[OP_DIV], [1], []⟩, 0,
        [.valNumber (.finite 1), .valNumber (.finite 0)],
        initInternState, init_table, []⟩ =
      .next ⟨⟨[OP_DIV], [1], []⟩, 1, [.valNumber .posInf],
        initInternState, init_table, []⟩ := by
  have h := c10_div_ieee_never_errors_on_numbers.1 ⟨[OP_DIV], [1], []⟩ 0
    [.valNumber (.finite 1), .valNumber (.finite 0)] initInternState
    init_table [] [] (.finite 1) (.finite 0) rfl rfl
  rw [h]
  rfl

/-- `emit_byte` appends exactly one byte to the chunk's code. -/
theorem emit_byte_code (st : CompilerState) (b : Nat) :
    (emit_byte st b).chunk.code = st.chunk.code ++ [b] := rfl

/-- `emit_bytes` appends exactly its two bytes to the chunk's code. -/
theorem emit_bytes_code (st : CompilerState) (b1 b2 : Nat) :
    (emit_bytes st b1 b2).chunk.code = st.chunk.code ++ [b1, b2] := by
  show (st.chunk.code ++ [b1]) ++ [b2] = st.chunk.code ++ [b1, b2]
  simp

/-- **C8**.  For every parse state and every continuation `pp` (in
particular the real `parse_precedence`), the `binary` handler first compiles
the right operand at one precedence level above the operator's own and then
emits: for `!=` exactly the pair `OP_EQUAL OP_NOT`, for `>=` exactly
`OP_LESS OP_NOT`, and for `<=` exactly `OP_GREATER OP_NOT`; the operator
precedences are `PREC_EQUALITY` for `!=` and `PREC_COMPARISON` for `>=` and
`<=`. -/
theorem c8_binary_synthesizes_composites (pp : PP) (can_assign : Bool)
    (st : CompilerState) :
    (st.parser.previous.type = .TOKEN_BANG_EQUAL →
      (binary pp can_assign st).chunk.code =
        (pp (PREC_EQUALITY + 1) st).chunk.code ++ [OP_EQUAL, OP_NOT]) ∧
    (st.parser.previous.type = .TOKEN_GREATER_EQUAL →
      (binary pp can_assign st).chunk.code =
        (pp (PREC_COMPARISON + 1) st).chunk.code ++ [OP_LESS, OP_NOT]) ∧
    (st.parser.previous.type = .TOKEN_LESS_EQUAL →
      (binary pp can_assign st).chunk.code =
        (pp (PREC_COMPARISON + 1) st).chunk.code ++ [OP_GREATER, OP_NOT]) ∧
    rule_precedence .TOKEN_BANG_EQUAL = PREC_EQUALITY ∧
    rule_precedence .TOKEN_GREATER_EQUAL = PREC_COMPARISON ∧
    rule_precedence .TOKEN_LESS_EQUAL = PREC_COMPARISON := by
  refine ⟨?_, ?_, ?_, rfl, rfl, rfl⟩ <;> intro h <;>
    simp only [binary, h, rule_precedence, emit_bytes_code]

/-- Witness for `c8_binary_synthesizes_composites` with the identity
continuation at a `!=` state. -/
theorem c8_binary_synthesizes_composites_witness :
    (binary (fun _ s => s) false stBangEqual).chunk.code =
      ((fun (_ : Nat) (s : CompilerState) => s) (PREC_EQUALITY + 1)
        stBangEqual).chunk.code ++ [OP_EQUAL, OP_NOT] :=
  (c8_binary_synthesizes_composites (fun _ s => s) false stBangEqual).1 rfl

/-- **C4** counterexample.  After inserting `"a"` and deleting it, the table
holds the tombstone left by deleting exactly that key (at its home slot
`hash % 8`) and a lookup reports the key absent; the claim therefore
requires `table_set` to return `false` here, but it returns `true` — the
code computes `isnewkey` as `entry->key == NULL`, which is also true of the
reused tombstone slot. -/
theorem c4_tombstone_reuse_counterexample :
    (table_set c4_table strA (.valBool true)).1 = true ∧
    table_get c4_table strA = none ∧
    c4_table.capacity = 8 ∧
    (slotAt c4_table.entries (strA.hash % 8)).key = none ∧
    (slotAt c4_table.entries (strA.hash % 8)).value = .valBool true := by
  decide

/-- **C4** (amended).  Under the table invariant, with the key's identity
determining the key, `table_set` returns `true` iff a `table_get` of the
same key just before would have reported it absent — irrespective of
tombstones: a slot left by deleting that key is reused and still counts as
inserting a new key. -/
theorem c4_set_true_iff_get_absent (t : LoxTable) (key : LoxString)
    (value : LoxValue) (hwf : TableWF t)
    (hdet : ∀ i k', i < t.capacity → (slotAt t.entries i).key = some k' →
      k'.id = key.id → k' = key) :
    ((table_set t key value).1 = true ↔ table_get t key = none) := by
  by_cases hlive : ∃ i, i < t.capacity ∧ (slotAt t.entries i).key = some key
  · obtain ⟨i, hi, hk⟩ := hlive
    have hget := table_get_hit t key hwf i hi hk
    have hpres := table_set_present t key value ((slotAt t.entries i).value)
      hwf ⟨i, by rw [hwf.len]; exact hi, slot_eta _ _ hk⟩
    constructor
    · intro htrue
      rw [hpres.1] at htrue
      exact absurd htrue (by simp)
    · intro hnone
      rw [hget] at hnone
      exact absurd hnone (by simp)
  · push_neg at hlive
    have habs : ∀ i, i < t.capacity → ∀ k',
        (slotAt t.entries i).key = some k' → k'.id ≠ key.id := by
      intro i hi k' hk' hid
      have hkk := hdet i k' hi hk' hid
      rw [hkk] at hk'
      exact hlive i hi hk'
    have habst := table_set_absent t key value hwf habs
    have hget := table_get_miss t key hwf habs
    rw [habst.1, hget]
    simp

/-- Witness for `c4_set_true_iff_get_absent` at the freshly initialised
table. -/
theorem c4_set_true_iff_get_absent_witness :
    ((table_set init_table strA .valNil).1 = true ↔
      table_get init_table strA = none) :=
  c4_set_true_iff_get_absent init_table strA .valNil tableWF_init
    (fun i _ hi _ _ => absurd hi (Nat.not_lt_zero i))

/-- **C5**.  Executing `OP_SET_GLOBAL` when the named variable's identity is
absent from the globals table raises the runtime error
`"Undefined variable '<name>'."` and erases the tentative insertion made by
`table_set`, so the name is still absent afterwards and every other global
binding is unchanged; on a name that is present it overwrites the binding
with the top of stack and raises no error. -/
theorem c5_set_global (vm : LoxVM) (name : LoxString)
    (hcode : vm.chunk.code.getD vm.ip 0 = OP_SET_GLOBAL)
    (hname : as_loxstring
      (vm.chunk.constants.getD (vm.chunk.code.getD (vm.ip + 1) 0) default)
      = name)
    (hwf : TableWF vm.globals) :
    ((∀ i, i < vm.globals.capacity → ∀ k',
        (slotAt vm.globals.entries i).key = some k' → k'.id ≠ name.id) →
      ∃ g, step vm = .rtError
            ("Undefined variable '" ++ String.mk name.buffer ++ "'.")
            (vm.chunk.lines.getD (vm.ip + 1) 0)
            { vm with ip := vm.ip + 2, stack := [], globals := g } ∧
          table_get g name = none ∧
          (∀ k w, k.id ≠ name.id →
            (liveMem g.entries k w ↔ liveMem vm.globals.entries k w))) ∧
    (∀ oldv, liveMem vm.globals.entries name oldv →
      ∃ g, step vm = .next { vm with ip := vm.ip + 2, globals := g } ∧
          TableWF g ∧
          table_get g name = some (peek_vm vm 0) ∧
          (∀ k w, k.id ≠ name.id →
            (liveMem g.entries k w ↔ liveMem vm.globals.entries k w))) := by
  have hpeekip : ∀ ip', peek_vm { vm with ip := ip' } 0 = peek_vm vm 0 :=
    fun _ => rfl
  constructor
  · intro habs
    have hset := table_set_absent vm.globals name (peek_vm vm 0) hwf habs
    set g1 : LoxTable := (table_set vm.globals name (peek_vm vm 0)).2 with hg1
    have hts : table_set vm.globals name (peek_vm vm 0) = (true, g1) := by
      rw [← hset.1]
    have hlive1 : liveMem g1.entries name (peek_vm vm 0) :=
      (hset.2.2.2 name (peek_vm vm 0)).mpr (Or.inr ⟨rfl, rfl⟩)
    obtain ⟨i, hilen, hslot⟩ := hlive1
    have hi : i < g1.capacity := by rw [← hset.2.1.len]; exact hilen
    have hk1 : (slotAt g1.entries i).key = some name := by rw [hslot]
    obtain ⟨d1, d2, d3⟩ := table_delete_spec g1 name hset.2.1 i hi hk1
    set g2 : LoxTable := ⟨g1.count, g1.capacity,
      g1.entries.set i ⟨none, .valBool true⟩⟩ with hg2
    refine ⟨g2, ?_, d3, ?_⟩
    · simp only [step, read_byte, hcode]
      norm_num [OP_CONSTANT, OP_DEFINE_GLOBAL, OP_GET_GLOBAL, OP_SET_GLOBAL,
        -List.getD_eq_getElem?_getD]
      simp only [hname, hpeekip, hts, d1, runtime_error_vm]
      norm_num
    · intro k w hkid
      have hms : ∀ k2, (slotAt g1.entries i).key = some k2 →
          k2.id = name.id := by
        intro k2 h
        rw [hk1] at h
        exact congrArg LoxString.id (Option.some.inj h).symm
      have hmO := liveMem_set_tomb g1.entries i name hms k w hkid
      have h2 := hset.2.2.2 k w
      constructor
      · intro h
        rcases h2.mp (hmO.mp h) with h' | ⟨rfl, rfl⟩
        · exact h'
        · exact absurd rfl hkid
      · intro h
        exact hmO.mpr (h2.mpr (Or.inl h))
  · intro oldv hold
    have hset := table_set_present vm.globals name (peek_vm vm 0) oldv hwf hold
    set g1 : LoxTable := (table_set vm.globals name (peek_vm vm 0)).2 with hg1
    have hts : table_set vm.globals name (peek_vm vm 0) = (false, g1) := by
      rw [← hset.1]
    refine ⟨g1, ?_, hset.2.1, hset.2.2.1, hset.2.2.2⟩
    simp only [step, read_byte, hcode]
    norm_num [OP_CONSTANT, OP_DEFINE_GLOBAL, OP_GET_GLOBAL, OP_SET_GLOBAL,
      -List.getD_eq_getElem?_getD]
    simp only [hname, hpeekip, hts]
    norm_num

/-- **C3**.  On a valid interner state, building a string twice from the
same `n`-byte sequence — by `copy_string` or `take_string` each time, in any
combination and order — yields pointer-equal results: whichever second call
is made returns exactly the first call's string (same allocation), the
interning invariant (each live string appears exactly once) still holds,
and the second `take_string` frees the redundant caller-supplied buffer. -/
theorem c3_interning (st : InternState) (hwf : InternWF st)
    (b1 b2 : List Char) (n : Nat) (hn1 : n ≤ b1.length)
    (hn2 : n ≤ b2.length) (hb : b1.take n = b2.take n)
    (r1 r2 : LoxString × InternState)
    (h1 : r1 = copy_string st b1 n ∨ r1 = take_string st b1 n)
    (h2 : r2 = copy_string r1.2 b2 n ∨ r2 = take_string r1.2 b2 n) :
    r2.1 = r1.1 ∧
    InternWF r2.2 ∧
    copy_string r1.2 b2 n = (r1.1, r1.2) ∧
    take_string r1.2 b2 n =
      (r1.1, { r1.2 with freed := b2 :: r1.2.freed }) := by
  obtain ⟨hwf1, ⟨v, hlive⟩, hlen1, hbuf1⟩ :=
    intern_op_spec st hwf b1 n hn1 r1 h1
  have hbuf1' : r1.1.buffer.take n = b2.take n := hbuf1.trans hb
  obtain ⟨hc, ht⟩ := intern_op_hit r1.2 hwf1 b2 n hn2 r1.1 v hlive
    hlen1 hbuf1'
  refine ⟨?_, ?_, hc, ht⟩
  · rcases h2 with rfl | rfl
    · rw [hc]
    · rw [ht]
  · rcases h2 with rfl | rfl
    · rw [hc]
      exact hwf1
    · rw [ht]
      exact ⟨hwf1.wf, hwf1.keys_hash, hwf1.keys_id, hwf1.keys_len,
        hwf1.keys_uniq⟩

/-- Witness for `c3_interning`: `copy_string "a"` then `take_string "a"` on
the fresh VM return the same allocation, and the take frees its buffer. -/
theorem c3_interning_witness :
    (take_string (copy_string initInternState ['a'] 1).2 ['a'] 1).1 =
      (copy_string initInternState ['a'] 1).1 ∧
    InternWF (take_string (copy_string initInternState ['a'] 1).2
      ['a'] 1).2 ∧
    copy_string (copy_string initInternState ['a'] 1).2 ['a'] 1 =
      ((copy_string initInternState ['a'] 1).1,
       (copy_string initInternState ['a'] 1).2) ∧
    take_string (copy_string initInternState ['a'] 1).2 ['a'] 1 =
      ((copy_string initInternState ['a'] 1).1,
       { (copy_string initInternState ['a'] 1).2 with
         freed := ['a'] ::
           (copy_string initInternState ['a'] 1).2.freed }) :=
  c3_interning initInternState internWF_init ['a'] ['a'] 1
    (Nat.le_refl 1) (Nat.le_refl 1) rfl
    (copy_string initInternState ['a'] 1)
    (take_string (copy_string initInternState ['a'] 1).2 ['a'] 1)
    (Or.inl rfl) (Or.inr rfl)

/-- Witness for `c5_set_global`: executing `OP_SET_GLOBAL "a"` against empty
globals raises the undefined-variable error and leaves `"a"` unbound. -/
theorem c5_set_global_witness :
    ∃ g, step vmSetGlobalA = .rtError
          ("Undefined variable '" ++ String.mk strA.buffer ++ "'.")
          (vmSetGlobalA.chunk.lines.getD (vmSetGlobalA.ip + 1) 0)
          { vmSetGlobalA with
            ip := vmSetGlobalA.ip + 2
            stack := []
            globals := g } ∧
        table_get g strA = none ∧
        (∀ k w, k.id ≠ strA.id →
          (liveMem g.entries k w ↔
            liveMem vmSetGlobalA.globals.entries k w)) :=
  (c5_set_global vmSetGlobalA strA rfl rfl tableWF_init).1
    (fun i hi _ _ => absurd hi (Nat.not_lt_zero i))

end Clox
